import Mathlib

/-!
Verification of the Skydrift Archipelago simulator core.

This development shallowly embeds the numeric core of the repository:

* `src/utils/sim.ts` — the orbital position model
  (`calculateMilesRadius`, `calculatePosition`, `calculateDistance`,
  `findMinimumDistanceTime`, `gcd`/`lcm`, `calculateOrbitalPeriod`) and the
  island-configuration search that is concatenated into the same file
  (`generateRandomIslandConfig`, `perturbConfig`, `evaluateConfig`, the
  Metropolis acceptance step of `optimizeIsland`).
* `src/utils/conjunctionAnalyzer.ts` — the statistics aggregator
  (`analyzeConjunctions`).
* `src/utils/timeFormat.ts` — `formatTime` and `parseTimeString`.

Numbers: JavaScript numbers are embedded as `ℚ` wherever the source only
uses field operations, `Math.floor`/`Math.ceil` and comparisons (so all
definitions stay executable), and as `ℝ` where the source computes
transcendental functions (`Math.cos`, `Math.sin`, `Math.log`, `Math.exp`,
fractional powers).  JavaScript `Math.floor`/`Math.ceil` are `⌊·⌋`/`⌈·⌉`,
`x % y` is `jsMod`, `Math.sign` is `Real.sign` (on `ℝ`) / `qSign` (on `ℚ`).

The conjunction *detector* (`calculateUpcomingConjunctions` and the
`Conjunction` interface of `sim.ts`) is not present in the source snapshot —
only its callers are — so it is modelled abstractly from the spec: the
aggregator and the search take the detector as an explicit function
argument, and theorems quantify over it.
-/

namespace Skydrift

/-- JavaScript `Math.trunc`-style truncation toward zero on rationals,
used to embed the sign convention of the JavaScript `%` operator. -/
def jsTrunc (q : ℚ) : ℤ := if q < 0 then -⌊-q⌋ else ⌊q⌋

/-- JavaScript remainder `a % b` (sign of the dividend): `a - b * trunc (a / b)`. -/
def jsMod (a b : ℚ) : ℚ := a - b * jsTrunc (a / b)

/-- JavaScript `Math.sign` on rationals. -/
def qSign (q : ℚ) : ℚ := if q < 0 then -1 else if 0 < q then 1 else 0

/-- An epicycle, from `sim.ts`: a single (signed) orbital period.  The numeric
type is a parameter so that the same shape serves the real-valued position
model and the rational-valued search/aggregation model. -/
structure Epicycle (α : Type) where
  period : α
deriving Repr, DecidableEq

/-- An island, from `sim.ts`.  `radius`, `color` and `visible` are
render-only data carried along unchanged. -/
structure Island (α : Type) where
  id : ℤ
  name : String
  color : String
  radius : α
  cycles : List (Epicycle α)
  visible : Bool
deriving Repr, DecidableEq

/-- A 2-D position in miles, from `sim.ts`. -/
structure Position where
  x : ℝ
  y : ℝ

/-- The fixed scaling constant of `sim.ts`: `672 / Math.pow(365, 2/3)`,
chosen so a period of 365 days has an orbital radius of 672 miles. -/
noncomputable def MILES_SCALE_FACTOR : ℝ := 672 / (365 : ℝ) ^ ((2 : ℝ) / 3)

/-- The simulator's `calculateMilesRadius`: `Math.pow(Math.abs(period), 2/3)
* MILES_SCALE_FACTOR`. -/
noncomputable def calculateMilesRadius (period : ℝ) : ℝ :=
  |period| ^ ((2 : ℝ) / 3) * MILES_SCALE_FACTOR

/-- One loop iteration of `calculatePosition`: the (x, y) contribution of a
single epicycle with period `p` at time `t` (internal units, 1000 = 1 day). -/
noncomputable def cycleContribution (t p : ℝ) : ℝ × ℝ :=
  let radius := calculateMilesRadius p
  let angularVelocity := Real.sign p * (2 * Real.pi) / |p|
  let timeInDays := t / 1000
  (radius * Real.cos (angularVelocity * timeInDays),
   radius * Real.sin (angularVelocity * timeInDays))

/-- The loop bound of `calculatePosition`: `level >= 0 ? level + 1 :
island.cycles.length`, intersected with the length by the loop condition
`i < cycleLimit && i < island.cycles.length`. -/
def cycleLimit (cyclesLength : ℕ) (level : ℤ) : ℕ :=
  if 0 ≤ level then min (level + 1).toNat cyclesLength else cyclesLength

/-- The simulator's `calculatePosition`: accumulates the epicycle
contributions for levels `0 .. cycleLimit - 1`.  `level = -1` (the default)
means all levels. -/
noncomputable def calculatePosition (island : Island ℝ) (t : ℝ) (level : ℤ) : Position :=
  let included := island.cycles.take (cycleLimit island.cycles.length level)
  let acc := included.foldl
    (fun acc c =>
      let con := cycleContribution t c.period
      (acc.1 + con.1, acc.2 + con.2)) ((0 : ℝ), (0 : ℝ))
  ⟨acc.1, acc.2⟩

/-- Distance between two islands at time `t`, from `sim.ts`
(`calculateDistance`). -/
noncomputable def calculateDistance (island1 island2 : Island ℝ) (t : ℝ) : ℝ :=
  let pos1 := calculatePosition island1 t (-1)
  let pos2 := calculatePosition island2 t (-1)
  Real.sqrt ((pos1.x - pos2.x) ^ 2 + (pos1.y - pos2.y) ^ 2)

/-- The simulator's recursive `findMinimumDistanceTime`, embedded with an
explicit recursion budget `fuel` (the source recursion is unbounded;
`none` means the budget ran out before the base case, so termination of the
source is the statement that some finite budget always suffices).  Splits
`[startTime, endTime]` into thirds, compares the distances at the two
interior points, and recurses into the two-thirds that can still contain
the minimum, until the interval length is at most `precision`. -/
noncomputable def findMinimumDistanceTime (island1 island2 : Island ℝ) :
    ℕ → ℝ → ℝ → ℝ → Option ℝ
  | 0, _, _, _ => none
  | fuel + 1, startTime, endTime, precision =>
    if endTime - startTime ≤ precision then some ((startTime + endTime) / 2)
    else
      let midTime1 := startTime + (endTime - startTime) / 3
      let midTime2 := startTime + 2 * (endTime - startTime) / 3
      let dist1 := calculateDistance island1 island2 midTime1
      let dist2 := calculateDistance island1 island2 midTime2
      if dist1 < dist2 then
        findMinimumDistanceTime island1 island2 fuel startTime midTime2 precision
      else
        findMinimumDistanceTime island1 island2 fuel midTime1 endTime precision

/-- The Euclidean loop of the simulator's private `gcd` (after both
arguments have been replaced by their absolute values): repeatedly replace
`(a, b)` by `(b, a % b)` until `b = 0`. -/
def gcdLoop (a b : ℕ) : ℕ :=
  if b = 0 then a else gcdLoop b (a % b)
termination_by b
decreasing_by exact Nat.mod_lt _ (Nat.pos_of_ne_zero (by assumption))

/-- The simulator's `gcd(a, b)`: absolute values, then the Euclidean loop.
The claim guarantees integral inputs, so the embedding works on `ℤ`. -/
def jsGcd (a b : ℤ) : ℕ := gcdLoop a.natAbs b.natAbs

/-- The simulator's `lcm(a, b) = Math.abs(a * b) / gcd(a, b)`, at the
natural-number arguments it receives inside `calculateOrbitalPeriod`
(accumulator and `Math.abs(period)`; the division is exact there). -/
def jsLcm (a b : ℕ) : ℕ := a * b / gcdLoop a b

/-- The simulator's `calculateOrbitalPeriod`: 0 for no cycles, the single
period magnitude for one cycle, and otherwise
`cycles.reduce((acc, c) => lcm(acc, |c.period|), |cycles[0].period|)`
(a fold over all elements whose accumulator starts at the first magnitude).
The claim guarantees integral periods, so the embedding uses `ℤ`. -/
def calculateOrbitalPeriod (cycles : List (Epicycle ℤ)) : ℕ :=
  match cycles with
  | [] => 0
  | [c] => c.period.natAbs
  | c :: rest => (c :: rest).foldl (fun acc d => jsLcm acc d.period.natAbs) c.period.natAbs

/-- The decimal digit character for a value `0 ≤ n ≤ 9`. -/
def digitChar (n : ℕ) : Char := Char.ofNat (48 + n)

/-- Matches the `\d` character class of `parseTimeString`'s regex. -/
def isDigitChar (c : Char) : Bool := 48 ≤ c.toNat && c.toNat ≤ 57

/-- Matches the `\s` character class of `parseTimeString`'s regex
(whitespace; only the plain space is ever produced by `formatTime`). -/
def isSpaceChar (c : Char) : Bool := c = ' ' || c = '\t' || c = '\n' || c = '\r'

/-- Numeric value of a digit character. -/
def charVal (c : Char) : ℕ := c.toNat - 48

/-- Decimal rendering of a natural number as JavaScript `toString` performs
it (most significant digit first, `0` rendered as `"0"`). -/
def natToChars (n : ℕ) : List Char :=
  if n = 0 then [digitChar 0] else ((Nat.digits 10 n).map digitChar).reverse

/-- Decimal rendering of an integer (a `-` sign for negative values). -/
def intToChars (i : ℤ) : List Char :=
  if i < 0 then '-' :: natToChars i.natAbs else natToChars i.natAbs

/-- JavaScript `String.prototype.padStart(w, c)` on character lists. -/
def padStart (l : List Char) (w : ℕ) (c : Char) : List Char :=
  List.replicate (w - l.length) c ++ l

/-- The value of a run of digit characters, as `parseInt` computes it on the
captured regex groups of `parseTimeString`. -/
def digitsVal (l : List Char) : ℕ := l.foldl (fun a c => 10 * a + charVal c) 0

/-- `formatTime` from `timeFormat.ts`: renders an internal timestamp
(1000 units = 1 day) as `yyyy-mm-dd` with an optional ` Hh` suffix when
`includeHours` is set and the hour component is positive.  Years are 365
days (0-indexed), months 73 days (1-indexed), days 1-indexed; hours are the
fractional day part times 24, floored. -/
def formatTime (timestamp : ℚ) (includeHours : Bool) : String :=
  let totalDays := timestamp / 1000
  let years : ℤ := ⌊totalDays / 365⌋
  let remainingDaysAfterYears := jsMod totalDays 365
  let months : ℤ := ⌊remainingDaysAfterYears / 73⌋ + 1
  let days : ℤ := ⌊jsMod remainingDaysAfterYears 73⌋ + 1
  let hours : ℤ := ⌊jsMod totalDays 1 * 24⌋
  let core := padStart (intToChars years) 4 (digitChar 0) ++ ['-'] ++
    padStart (intToChars months) 2 (digitChar 0) ++ ['-'] ++
    padStart (intToChars days) 2 (digitChar 0)
  String.mk
    (if includeHours && decide (0 < hours) then
      core ++ [' '] ++ intToChars hours ++ ['h']
    else core)

/-- The optional `(?:\s+(\d+)h)?$` tail of `parseTimeString`'s regex: an
empty tail yields hour 0; otherwise one or more whitespace characters, one
or more digits and a final `h` are required. -/
def parseHoursPart (l : List Char) : Option ℕ :=
  match l with
  | [] => some 0
  | _ =>
    let sp := l.takeWhile isSpaceChar
    if sp = [] then none
    else
      let afterSp := l.dropWhile isSpaceChar
      let ds := afterSp.takeWhile isDigitChar
      if ds = [] then none
      else if afterSp.drop ds.length = ['h'] then some (digitsVal ds) else none

/-- `parseTimeString` from `timeFormat.ts`: matches
`^(\d{4})-(\d{2})-(\d{2})(?:\s+(\d+)h)?$`, validates
`year ≥ 0`, `1 ≤ month ≤ 5`, `1 ≤ day ≤ 73`, `0 ≤ hours < 24`, and
reassembles the timestamp as
`(year*365 + (month-1)*73 + (day-1) + hours/24) * 1000`. -/
def parseTimeString (s : String) : Option ℚ :=
  match s.data with
  | y1 :: y2 :: y3 :: y4 :: ca :: m1 :: m2 :: cb :: d1 :: d2 :: rest =>
    if (isDigitChar y1 && isDigitChar y2 && isDigitChar y3 && isDigitChar y4 &&
        isDigitChar m1 && isDigitChar m2 && isDigitChar d1 && isDigitChar d2) &&
        (ca = '-' && cb = '-') then
      match parseHoursPart rest with
      | none => none
      | some hours =>
        let year := digitsVal [y1, y2, y3, y4]
        let month := digitsVal [m1, m2]
        let day := digitsVal [d1, d2]
        if month < 1 || month > 5 || day < 1 || day > 73 || hours ≥ 24 then none
        else
          some (((year : ℚ) * 365 + ((month : ℚ) - 1) * 73 + ((day : ℚ) - 1) +
            (hours : ℚ) / 24) * 1000)
    else none
  | _ => none

/-- A conjunction record.  Modelled from the spec: the `Conjunction`
interface lives in the part of `sim.ts` that is absent from the source
snapshot (only its callers are present); the spec, §3, lists its fields. -/
structure Conjunction where
  id : ℤ
  island1Id : ℤ
  island2Id : ℤ
  island1Name : String
  island2Name : String
  startTime : ℚ
  endTime : ℚ
  minDistance : ℚ
  minDistanceTime : ℚ
  duration : ℚ
deriving Repr, DecidableEq

/-- Per-pair conjunction statistics, from `conjunctionAnalyzer.ts`.  The
`Infinity` sentinels of the source are `⊤ : WithTop ℚ`; the `null` gap
fields are `none`. -/
structure ConjunctionStats where
  island1Id : ℤ
  island2Id : ℤ
  island1Name : String
  island2Name : String
  totalConjunctions : ℕ
  avgConjunctionDuration : ℚ
  minConjunctionDuration : WithTop ℚ
  maxConjunctionDuration : ℚ
  avgTimeBetweenConjunctions : ℚ
  minTimeBetweenConjunctions : Option ℚ
  maxTimeBetweenConjunctions : Option ℚ
  avgMinDistance : ℚ
  minMinDistance : WithTop ℚ
  conjunctionTimes : List ℚ
  allConjunctions : List Conjunction
deriving DecidableEq

/-- Analysis parameters, from `conjunctionAnalyzer.ts`. -/
structure AnalysisParams where
  simulationDays : ℚ
  timeStepDays : ℚ
  startTimeMs : Option ℚ
deriving Repr, DecidableEq

/-- Lookup in a JavaScript `Map` embedded as an insertion-ordered
association list. -/
def mapGet {α : Type} : List (String × α) → String → Option α
  | [], _ => none
  | (k', v') :: rest, k => if k' = k then some v' else mapGet rest k

/-- JavaScript `Map.set`: overwrite in place when the key exists, append
otherwise. -/
def mapSet {α : Type} : List (String × α) → String → α → List (String × α)
  | [], k, v => [(k, v)]
  | (k', v') :: rest, k, v =>
    if k' = k then (k', v) :: rest else (k', v') :: mapSet rest k v

/-- In-place mutation of the value fetched by `Map.get`, as the analyzer's
processing loop performs it (a no-op when the key is absent). -/
def mapModify {α : Type} : List (String × α) → String → (α → α) → List (String × α)
  | [], _, _ => []
  | (k', v') :: rest, k, f =>
    if k' = k then (k', f v') :: rest else (k', v') :: mapModify rest k f

/-- The analyzer's `getPairKey` (also duplicated locally inside
`evaluateConfig`): the two ids joined by `-`, smaller id first. -/
def getPairKey (island1Id island2Id : ℤ) : String :=
  if island1Id < island2Id then toString island1Id ++ "-" ++ toString island2Id
  else toString island2Id ++ "-" ++ toString island1Id

/-- The zeroed `ConjunctionStats` entry created for each pair by
`analyzeConjunctions`. -/
def zeroStats (island1 island2 : Island ℚ) : ConjunctionStats where
  island1Id := island1.id
  island2Id := island2.id
  island1Name := island1.name
  island2Name := island2.name
  totalConjunctions := 0
  avgConjunctionDuration := 0
  minConjunctionDuration := ⊤
  maxConjunctionDuration := 0
  avgTimeBetweenConjunctions := 0
  minTimeBetweenConjunctions := none
  maxTimeBetweenConjunctions := none
  avgMinDistance := 0
  minMinDistance := ⊤
  conjunctionTimes := []
  allConjunctions := []

/-- The unordered island pairs visited by the analyzer's double
initialization loop, in loop order. -/
def allPairs : List (Island ℚ) → List (Island ℚ × Island ℚ)
  | [] => []
  | island1 :: rest => rest.map (fun island2 => (island1, island2)) ++ allPairs rest

/-- The chunk start times of the analyzer's
`for (time = start; time < end; time += chunk)` loop.  For a non-positive
chunk size the JavaScript loop would never terminate when the range is
non-empty; the embedding returns `[]` in that degenerate case (no claim
exercises it). -/
def chunkStarts (startTimeMs endTimeMs chunkSizeMs : ℚ) : List ℚ :=
  if h : chunkSizeMs ≤ 0 ∨ endTimeMs ≤ startTimeMs then []
  else startTimeMs :: chunkStarts (startTimeMs + chunkSizeMs) endTimeMs chunkSizeMs
termination_by (⌈(endTimeMs - startTimeMs) / chunkSizeMs⌉).toNat
decreasing_by
  push_neg at h
  obtain ⟨hc, hlt⟩ := h
  have hkey : (endTimeMs - (startTimeMs + chunkSizeMs)) / chunkSizeMs
      = (endTimeMs - startTimeMs) / chunkSizeMs - 1 := by
    field_simp
    ring
  have hpos : 0 < ⌈(endTimeMs - startTimeMs) / chunkSizeMs⌉ := by
    rw [Int.lt_ceil]
    push_cast
    exact div_pos (by linarith) hc
  rw [hkey, Int.ceil_sub_one]
  omega

/-- The per-conjunction update of the analyzer's processing loop:
increment the count, append the record and its start time, and update the
running duration/distance aggregates. -/
def processConjunction (m : List (String × ConjunctionStats)) (conj : Conjunction) :
    List (String × ConjunctionStats) :=
  mapModify m (getPairKey conj.island1Id conj.island2Id) fun ps =>
    let total := ps.totalConjunctions + 1
    { ps with
      totalConjunctions := total
      allConjunctions := ps.allConjunctions ++ [conj]
      conjunctionTimes := ps.conjunctionTimes ++ [conj.startTime]
      avgConjunctionDuration :=
        (ps.avgConjunctionDuration * ((total : ℚ) - 1) + conj.duration) / (total : ℚ)
      minConjunctionDuration := min ps.minConjunctionDuration (conj.duration : WithTop ℚ)
      maxConjunctionDuration := max ps.maxConjunctionDuration conj.duration
      avgMinDistance :=
        (ps.avgMinDistance * ((total : ℚ) - 1) + conj.minDistance) / (total : ℚ)
      minMinDistance := min ps.minMinDistance (conj.minDistance : WithTop ℚ) }

/-- The `(times[i] - times[i-1]) / 1000` gaps between consecutive entries
of a (sorted) start-time list. -/
def consecGaps : List ℚ → List ℚ
  | a :: b :: rest => ((b - a) / 1000) :: consecGaps (b :: rest)
  | _ => []

/-- Collapse the `Infinity` sentinel of the min-gap fold into the `null`
encoding of the stats record (the sentinel never survives a non-empty gap
list). -/
def withTopFinite : WithTop ℚ → Option ℚ
  | ⊤ => none
  | (q : ℚ) => some q

/-- The interval pass of `analyzeConjunctions` for a single pair: sort the
start times, build the interval list (the combined wraparound interval when
positive, then the consecutive gaps), and fill in the avg/min/max gap
fields.  Pairs with no conjunctions are left untouched. -/
def computeIntervals (simulationDays : ℚ) (ps : ConjunctionStats) : ConjunctionStats :=
  if ps.totalConjunctions > 0 then
    let sorted := ps.conjunctionTimes.mergeSort (fun a b => decide (a ≤ b))
    let firstConjTime := sorted.headD 0 / 1000
    let lastConjTime := sorted.getLastD 0 / 1000
    let outsideInterval := firstConjTime + (simulationDays - lastConjTime)
    let gaps := consecGaps sorted
    let intervals := (if 0 < outsideInterval then [outsideInterval] else []) ++ gaps
    let avg := intervals.sum / (intervals.length : ℚ)
    let bounds : Option ℚ × Option ℚ :=
      if ps.totalConjunctions > 1 then
        (withTopFinite (gaps.foldl (fun (acc : WithTop ℚ) (g : ℚ) => min acc (g : WithTop ℚ)) ⊤),
         some (gaps.foldl (fun acc g => max acc g) 0))
      else (some avg, some avg)
    { ps with
      conjunctionTimes := sorted
      avgTimeBetweenConjunctions := avg
      minTimeBetweenConjunctions := bounds.1
      maxTimeBetweenConjunctions := bounds.2 }
  else ps

/-- `analyzeConjunctions` from `conjunctionAnalyzer.ts`.  The detector
(`simulator.calculateUpcomingConjunctions`, absent from the snapshot) is an
explicit argument `calcUpcoming lookaheadDays fromTimeMs`.  Note the source
function takes no target-pair argument: every unordered island pair is
initialized and aggregated. -/
def analyzeConjunctions (calcUpcoming : ℚ → ℚ → List Conjunction)
    (islands : List (Island ℚ)) (params : AnalysisParams) :
    List (String × ConjunctionStats) :=
  let startTimeMs := params.startTimeMs.getD 0
  let stats0 := (allPairs islands).foldl
    (fun m p => mapSet m (getPairKey p.1.id p.2.id) (zeroStats p.1 p.2)) []
  let totalTimeMs := params.simulationDays * 1000
  let chunkSizeMs := params.timeStepDays * 1000
  let endTimeMs := startTimeMs + totalTimeMs
  let allConjunctions := (chunkStarts startTimeMs endTimeMs chunkSizeMs).flatMap
    (fun time => calcUpcoming params.timeStepDays time)
  let stats1 := allConjunctions.foldl processConjunction stats0
  stats1.map fun e => (e.1, computeIntervals params.simulationDays e.2)

/-- A conjunction target of the configuration search
(`islandConfigSearch`): an island pair and an optional desired average gap
in days. -/
structure ConjunctionTarget where
  island1Id : ℤ
  island2Id : ℤ
  targetAvgGap : Option ℚ
deriving Repr, DecidableEq

/-- The part of `ConfigSearchResult` produced by `evaluateConfig` (islands
snapshot, score, stats, per-pair error map). -/
structure ConfigSearchResult where
  islands : List (Island ℚ)
  score : ℝ
  stats : List (String × ConjunctionStats)
  errors : List (String × ℝ)

/-- One iteration of `evaluateConfig`'s scoring loop, updating the
accumulated `(totalScore, errors)` pair for one conjunction target: a pair
with no stats entry or zero conjunctions adds the 1,000,000 penalty and
records it; otherwise a defined `targetAvgGap` adds and records
`|ln(actual / target)| * 100`, and an undefined one adds nothing and
records 0. -/
noncomputable def scoreStep (stats : List (String × ConjunctionStats))
    (acc : ℝ × List (String × ℝ)) (target : ConjunctionTarget) :
    ℝ × List (String × ℝ) :=
  let pairKey := getPairKey target.island1Id target.island2Id
  match mapGet stats pairKey with
  | some pairStats =>
    if pairStats.totalConjunctions = 0 then
      (acc.1 + 1000000, mapSet acc.2 pairKey 1000000)
    else
      match target.targetAvgGap with
      | some targetAvgGap =>
        let ratio := (pairStats.avgTimeBetweenConjunctions : ℝ) / (targetAvgGap : ℝ)
        let logRatioError := |Real.log ratio| * 100
        (acc.1 + logRatioError, mapSet acc.2 pairKey logRatioError)
      | none => (acc.1, mapSet acc.2 pairKey 0)
  | none => (acc.1 + 1000000, mapSet acc.2 pairKey 1000000)

/-- The scoring loop of `evaluateConfig`, folded over the conjunction
targets exactly as the source's `for (const target of
this.conjunctionTargets)` loop runs. -/
noncomputable def scoreTargets (stats : List (String × ConjunctionStats))
    (targets : List ConjunctionTarget) : ℝ × List (String × ℝ) :=
  targets.foldl (scoreStep stats) ((0 : ℝ), [])

/-- The per-target score contribution implicit in the scoring loop: a pair
with no stats entry or no observed conjunctions contributes the fixed
1,000,000 penalty; otherwise a defined `targetAvgGap` contributes
`|ln(actualAvgGap / targetAvgGap)| * 100` and an undefined one contributes
0. -/
noncomputable def targetError (stats : List (String × ConjunctionStats))
    (target : ConjunctionTarget) : ℝ :=
  match mapGet stats (getPairKey target.island1Id target.island2Id) with
  | none => 1000000
  | some pairStats =>
    if pairStats.totalConjunctions = 0 then 1000000
    else
      match target.targetAvgGap with
      | none => 0
      | some targetAvgGap =>
        |Real.log ((pairStats.avgTimeBetweenConjunctions : ℝ) / (targetAvgGap : ℝ))| * 100

/-- `evaluateConfig` from the configuration search: draw a random start
time in a 10,000-year range (`u` is the `Math.random()` draw), run the
analyzer with it, and score the conjunction targets.  The source also
passes a `targetPairs` list to `analyzeConjunctions`, but the analyzer
takes no such parameter, so the argument is ignored at run time. -/
noncomputable def evaluateConfig (calcUpcoming : ℚ → ℚ → List Conjunction) (u : ℚ)
    (islands : List (Island ℚ)) (conjunctionTargets : List ConjunctionTarget)
    (analysisParams : AnalysisParams) : ConfigSearchResult :=
  let randomStartTimeMs : ℚ := ((⌊u * 3650000000⌋ : ℤ) : ℚ)
  let params := { analysisParams with startTimeMs := some randomStartTimeMs }
  let stats := analyzeConjunctions calcUpcoming islands params
  let scored := scoreTargets stats conjunctionTargets
  { islands := islands, score := scored.1, stats := stats, errors := scored.2 }

/-- The Metropolis acceptance probability computed in each annealing
iteration of `optimizeIsland`: 1.0 when the neighbor's score does not
exceed the current score, `exp((currentScore - newScore) / temperature)`
otherwise. -/
noncomputable def acceptanceProbability (currentScore newScore temperature : ℝ) : ℝ :=
  if newScore > currentScore then Real.exp ((currentScore - newScore) / temperature)
  else 1

/-- The acceptance decision of `optimizeIsland`:
`acceptanceProbability > Math.random()`, with `u` the uniform draw. -/
def acceptsCandidate (currentScore newScore temperature u : ℝ) : Prop :=
  acceptanceProbability currentScore newScore temperature > u

/-- Epicycle bounds of the configuration search.  `allowNegative` is a
truthiness check in the source, embedded as `Bool` (absent = `false`). -/
structure EpicycleBounds where
  minPeriod : Option ℚ
  maxPeriod : Option ℚ
  minProportion : Option ℚ
  maxProportion : Option ℚ
  allowNegative : Bool
deriving Repr, DecidableEq

/-- The combined minimum-period bound of the search: the proportional
bound (relative to the parent magnitude, invalid at index 0 or for a zero
parent) merged with the absolute bound by taking the larger, erroring when
neither is specified — exactly the min-side block duplicated inside
`generateRandomIslandConfig` and `perturbConfig`. -/
def resolveMinBound (bounds : EpicycleBounds) (i : ℕ) (parentAbs : ℚ) :
    Except String ℚ :=
  match bounds.minProportion with
  | some minProportion =>
    if i = 0 then .error "minProportion at index 0"
    else if parentAbs = 0 then .error "zero parent period"
    else
      match bounds.minPeriod with
      | some minPeriod => .ok (max minPeriod (minProportion * parentAbs))
      | none => .ok (minProportion * parentAbs)
  | none =>
    match bounds.minPeriod with
    | some minPeriod => .ok minPeriod
    | none => .error "must specify minPeriod or minProportion"

/-- The combined maximum-period bound (smaller of absolute and
proportional), the max-side block of the same duplicated source code. -/
def resolveMaxBound (bounds : EpicycleBounds) (i : ℕ) (parentAbs : ℚ) :
    Except String ℚ :=
  match bounds.maxProportion with
  | some maxProportion =>
    if i = 0 then .error "maxProportion at index 0"
    else if parentAbs = 0 then .error "zero parent period"
    else
      match bounds.maxPeriod with
      | some maxPeriod => .ok (min maxPeriod (maxProportion * parentAbs))
      | none => .ok (maxProportion * parentAbs)
  | none =>
    match bounds.maxPeriod with
    | some maxPeriod => .ok maxPeriod
    | none => .error "must specify maxPeriod or maxProportion"

/-- The effective period bounds computed identically inside
`generateRandomIslandConfig` and `perturbConfig`: the combined min and max
bounds, the min rounded up and the max rounded down to integers, and the
max raised to the min when rounding crossed them.  Errors mirror the
source's thrown exceptions. -/
def effectivePeriodBounds (bounds : EpicycleBounds) (i : ℕ) (parentAbs : ℚ) :
    Except String (ℤ × ℤ) :=
  match resolveMinBound bounds i parentAbs with
  | .error e => .error e
  | .ok actualMin0 =>
    let actualMinPeriod : ℤ := ⌈actualMin0⌉
    match resolveMaxBound bounds i parentAbs with
    | .error e => .error e
    | .ok actualMax0 =>
      let actualMaxPeriod : ℤ := ⌊actualMax0⌋
      .ok (actualMinPeriod,
        if actualMinPeriod > actualMaxPeriod then actualMinPeriod
        else actualMaxPeriod)

/-- One iteration of `generateRandomIslandConfig`'s epicycle loop: compute
the effective bounds against the last already-generated cycle, draw a
uniform integer period in `[min, max]` (no draw when the bounds coincide),
and flip its sign with probability 1/2 when `allowNegative`.  `draws` is
the `Math.random()` stream, `pos` the next unused index. -/
def generateCycle (bounds : EpicycleBounds) (i : ℕ) (cyclesSoFar : List (Epicycle ℚ))
    (draws : ℕ → ℚ) (pos : ℕ) : Except String (Epicycle ℚ × ℕ) :=
  let parentAbs : ℚ := |(cyclesSoFar.getLastD ⟨0⟩).period|
  match effectivePeriodBounds bounds i parentAbs with
  | .error e => .error e
  | .ok (actualMinPeriod, actualMaxPeriod) =>
    let step1 : ℤ × ℕ :=
      if actualMinPeriod = actualMaxPeriod then (actualMinPeriod, pos)
      else
        (⌊(actualMinPeriod : ℚ) + draws pos *
            ((actualMaxPeriod : ℚ) - (actualMinPeriod : ℚ) + 1)⌋, pos + 1)
    let step2 : ℤ × ℕ :=
      if bounds.allowNegative then
        (if draws step1.2 < 1 / 2 then -step1.1 else step1.1, step1.2 + 1)
      else step1
    .ok (⟨(step2.1 : ℚ)⟩, step2.2)

/-- The epicycle loop of `generateRandomIslandConfig`, pushing one
generated cycle per bounds entry. -/
def generateCyclesAux (draws : ℕ → ℚ) :
    List EpicycleBounds → ℕ → List (Epicycle ℚ) → ℕ →
      Except String (List (Epicycle ℚ) × ℕ)
  | [], _, acc, pos => .ok (acc, pos)
  | bounds :: rest, i, acc, pos =>
    match generateCycle bounds i acc draws pos with
    | .error e => .error e
    | .ok (cycle, next) => generateCyclesAux draws rest (i + 1) (acc ++ [cycle]) next

/-- `generateRandomIslandConfig`: the island base with freshly generated
cycles, one per epicycle bounds entry. -/
def generateRandomIslandConfig (epicycleBounds : List EpicycleBounds)
    (islandBase : Island ℚ) (draws : ℕ → ℚ) (pos : ℕ) :
    Except String (Island ℚ × ℕ) :=
  match generateCyclesAux draws epicycleBounds 0 [] pos with
  | .error e => .error e
  | .ok (cycles, next) => .ok ({ islandBase with cycles := cycles }, next)

/-- One iteration of `perturbConfig`'s epicycle loop over the island being
configured.  The gate draw is always consumed; when it passes, the period
magnitude receives a temperature-scaled random integer delta clamped back
into the effective bounds (computed against the current, possibly already
perturbed, parent), and the sign is kept except for a 1/10 flip chance when
`allowNegative` (which consumes one more draw). -/
def perturbCycle (bounds : EpicycleBounds) (j : ℕ) (cyclesSoFar : List (Epicycle ℚ))
    (cycle : Epicycle ℚ) (temperature initialTemperature : ℚ) (draws : ℕ → ℚ)
    (pos : ℕ) : Except String (Epicycle ℚ × ℕ) :=
  if draws pos < 1 / 2 * (temperature / initialTemperature) then
    let parentAbs : ℚ := |(cyclesSoFar.getLastD ⟨0⟩).period|
    let currentSign := qSign cycle.period
    match effectivePeriodBounds bounds j parentAbs with
    | .error e => .error e
    | .ok (actualMinPeriod, actualMaxPeriod) =>
      let maxIntegerPerturbation : ℤ :=
        max 1 ⌊((actualMaxPeriod : ℚ) - (actualMinPeriod : ℚ)) * (1 / 5) *
          (temperature / initialTemperature)⌋
      let integerPerturbation : ℤ :=
        ⌊draws (pos + 1) * (2 * (maxIntegerPerturbation : ℚ) + 1)⌋
          - maxIntegerPerturbation
      let newPeriod0 : ℚ := |cycle.period| + (integerPerturbation : ℚ)
      let newPeriod : ℚ :=
        max (actualMinPeriod : ℚ) (min (actualMaxPeriod : ℚ) newPeriod0)
      if bounds.allowNegative then
        .ok (⟨if draws (pos + 2) < 1 / 10 then -currentSign * newPeriod
              else currentSign * newPeriod⟩, pos + 3)
      else .ok (⟨currentSign * newPeriod⟩, pos + 2)
  else .ok (cycle, pos + 1)

/-- The epicycle loop of `perturbConfig` over the last island's cycles,
carrying the partially perturbed prefix (the parent seen by proportional
bounds is the already-updated one). -/
def perturbCyclesAux (epicycleBounds : List EpicycleBounds)
    (temperature initialTemperature : ℚ) (draws : ℕ → ℚ) :
    List (Epicycle ℚ) → ℕ → List (Epicycle ℚ) → ℕ →
      Except String (List (Epicycle ℚ) × ℕ)
  | [], _, acc, pos => .ok (acc, pos)
  | cycle :: rest, j, acc, pos =>
    match epicycleBounds[j]? with
    | none => .error "missing epicycle bounds"
    | some bounds =>
      match perturbCycle bounds j acc cycle temperature initialTemperature draws pos with
      | .error e => .error e
      | .ok (cycle', next) =>
        perturbCyclesAux epicycleBounds temperature initialTemperature draws
          rest (j + 1) (acc ++ [cycle']) next

/-- `perturbConfig`: deep-copy the configuration and perturb only the last
island (the one being configured); a single-island configuration is
returned unchanged. -/
def perturbConfig (epicycleBounds : List EpicycleBounds)
    (islands : List (Island ℚ)) (temperature initialTemperature : ℚ)
    (draws : ℕ → ℚ) (pos : ℕ) : Except String (List (Island ℚ) × ℕ) :=
  if islands.length > 1 then
    let island := (islands.getLastD ⟨0, "", "", 0, [], false⟩)
    match perturbCyclesAux epicycleBounds temperature initialTemperature draws
        island.cycles 0 [] pos with
    | .error e => .error e
    | .ok (cycles', next) =>
      .ok (islands.dropLast ++ [{ island with cycles := cycles' }], next)
  else .ok (islands, pos)

/-- Concrete island fixtures for counterexamples and witnesses. -/
def islandA : Island ℚ := ⟨1, "A", "red", 10, [⟨300⟩], true⟩

/-- Second concrete island fixture. -/
def islandB : Island ℚ := ⟨2, "B", "blue", 10, [⟨-150⟩], true⟩

/-- Third concrete island fixture. -/
def islandC : Island ℚ := ⟨3, "C", "green", 10, [⟨200⟩], true⟩

/-- A concrete conjunction between islands 2 and 3 (within the first
simulated day). -/
def conjBC : Conjunction := ⟨1, 2, 3, "B", "C", 500, 600, 10, 550, 1 / 10⟩

/-- A concrete detector reporting `conjBC` in every window. -/
def detBC : ℚ → ℚ → List Conjunction := fun _ _ => [conjBC]

/-- A conjunction whose start time lies before the analysis window, as the
spec's boundary handling produces when a conjunction is already in progress
at the window start (look-back up to 30 days). -/
def conjEarly : Conjunction := ⟨1, 2, 3, "B", "C", -4000, -3900, 10, -3950, 1 / 10⟩

/-- A conjunction late in the one-day analysis window. -/
def conjLate : Conjunction := ⟨2, 2, 3, "B", "C", 900, 950, 10, 925, 1 / 20⟩

/-- A detector reporting `conjEarly` and `conjLate` (within the spec's
look-back envelope for a window starting at 0). -/
def detLook : ℚ → ℚ → List Conjunction := fun _ _ => [conjEarly, conjLate]

/-- The per-level bound property of C5 for a freshly generated cycle list:
each cycle's effective bounds (relative to the immediately preceding cycle
of the same list) compute successfully, and whenever the rounded effective
minimum is at least 1 the period's magnitude lies within them and the
period is non-zero. -/
def boundsOk : List EpicycleBounds → ℕ → Epicycle ℚ → List (Epicycle ℚ) → Prop
  | [], _, _, cs => cs = []
  | b :: bl, i, parent, cs =>
    match cs with
    | [] => False
    | c :: cs' =>
      (∃ amin amax : ℤ, effectivePeriodBounds b i |parent.period| = .ok (amin, amax)
        ∧ amin ≤ amax
        ∧ (1 ≤ amin → (amin : ℚ) ≤ |c.period| ∧ |c.period| ≤ (amax : ℚ)
            ∧ c.period ≠ 0))
      ∧ boundsOk bl (i + 1) c cs'

/-- The per-level property of C5 for a perturbed cycle list: each cycle is
either unchanged or lies within the effective bounds computed against the
current (already updated) parent, with non-zero periods preserved whenever
the rounded effective minimum is at least 1. -/
def perturbOk : List EpicycleBounds → ℕ → Epicycle ℚ → List (Epicycle ℚ) →
    List (Epicycle ℚ) → Prop
  | _, _, _, [], newCs => newCs = []
  | bl, j, parent, old :: oldRest, newCs =>
    match newCs with
    | [] => False
    | c :: newRest =>
      (c = old
        ∨ ∃ b, bl[j]? = some b
            ∧ ∃ amin amax : ℤ,
                effectivePeriodBounds b j |parent.period| = .ok (amin, amax)
                ∧ amin ≤ amax
                ∧ (1 ≤ amin → (amin : ℚ) ≤ |c.period| ∧ |c.period| ≤ (amax : ℚ)
                    ∧ (old.period ≠ 0 → c.period ≠ 0)))
      ∧ perturbOk bl (j + 1) c oldRest newRest

theorem foldl_pair_add (f g : Epicycle ℝ → ℝ) (l : List (Epicycle ℝ)) (a b : ℝ) :
    l.foldl (fun acc c => (acc.1 + f c, acc.2 + g c)) (a, b)
      = (a + (l.map f).sum, b + (l.map g).sum) := by
  induction l generalizing a b with
  | nil => simp
  | cons c l ih => simp [ih, add_assoc]

/-- C6: for every island with non-zero epicycle periods, every time and
every level limit, `calculatePosition` returns exactly the sum, over the
included levels, of `radius(period) * (cos, sin)(sign(period) * 2π /
|period| * (t / 1000))`, with `radius(p) = |p|^(2/3) * (672 / 365^(2/3))`. -/
theorem calculatePosition_eq_sum (island : Island ℝ) (t : ℝ) (level : ℤ)
    (hnz : ∀ c ∈ island.cycles, c.period ≠ 0) :
    (calculatePosition island t level).x
        = ((island.cycles.take (cycleLimit island.cycles.length level)).map
            (fun c => |c.period| ^ ((2 : ℝ) / 3) * (672 / (365 : ℝ) ^ ((2 : ℝ) / 3)) *
              Real.cos (Real.sign c.period * (2 * Real.pi) / |c.period| * (t / 1000)))).sum
      ∧ (calculatePosition island t level).y
        = ((island.cycles.take (cycleLimit island.cycles.length level)).map
            (fun c => |c.period| ^ ((2 : ℝ) / 3) * (672 / (365 : ℝ) ^ ((2 : ℝ) / 3)) *
              Real.sin (Real.sign c.period * (2 * Real.pi) / |c.period| * (t / 1000)))).sum := by
  have hx : ∀ c : Epicycle ℝ, (cycleContribution t c.period).1
      = |c.period| ^ ((2 : ℝ) / 3) * (672 / (365 : ℝ) ^ ((2 : ℝ) / 3)) *
          Real.cos (Real.sign c.period * (2 * Real.pi) / |c.period| * (t / 1000)) := by
    intro c
    simp [cycleContribution, calculateMilesRadius, MILES_SCALE_FACTOR]
  have hy : ∀ c : Epicycle ℝ, (cycleContribution t c.period).2
      = |c.period| ^ ((2 : ℝ) / 3) * (672 / (365 : ℝ) ^ ((2 : ℝ) / 3)) *
          Real.sin (Real.sign c.period * (2 * Real.pi) / |c.period| * (t / 1000)) := by
    intro c
    simp [cycleContribution, calculateMilesRadius, MILES_SCALE_FACTOR]
  constructor
  · show ((island.cycles.take (cycleLimit island.cycles.length level)).foldl
        (fun acc c => (acc.1 + (cycleContribution t c.period).1,
                       acc.2 + (cycleContribution t c.period).2)) ((0:ℝ), (0:ℝ))).1 = _
    rw [foldl_pair_add (fun c => (cycleContribution t c.period).1)
      (fun c => (cycleContribution t c.period).2)]
    simp only [zero_add, hx]
  · show ((island.cycles.take (cycleLimit island.cycles.length level)).foldl
        (fun acc c => (acc.1 + (cycleContribution t c.period).1,
                       acc.2 + (cycleContribution t c.period).2)) ((0:ℝ), (0:ℝ))).2 = _
    rw [foldl_pair_add (fun c => (cycleContribution t c.period).1)
      (fun c => (cycleContribution t c.period).2)]
    simp only [zero_add, hy]

/-- Witness for C6 at a concrete island with one non-zero epicycle. -/
theorem calculatePosition_eq_sum_witness :
    (calculatePosition ⟨1, "A", "red", 10, [⟨365⟩], true⟩ 0 (-1)).x
      = (([⟨365⟩] : List (Epicycle ℝ)).map
          (fun c => |c.period| ^ ((2 : ℝ) / 3) * (672 / (365 : ℝ) ^ ((2 : ℝ) / 3)) *
            Real.cos (Real.sign c.period * (2 * Real.pi) / |c.period| * ((0:ℝ) / 1000)))).sum := by
  have h := calculatePosition_eq_sum ⟨1, "A", "red", 10, [⟨365⟩], true⟩ 0 (-1)
    (by intro c hc; simp at hc; subst hc; norm_num)
  exact h.1

theorem findMinimumDistanceTime_mem (island1 island2 : Island ℝ) :
    ∀ (fuel : ℕ) (s e p t : ℝ), s ≤ e →
      findMinimumDistanceTime island1 island2 fuel s e p = some t → s ≤ t ∧ t ≤ e := by
  intro fuel
  induction fuel with
  | zero => intro s e p t _ h; simp [findMinimumDistanceTime] at h
  | succ n ih =>
    intro s e p t hse h
    rw [findMinimumDistanceTime] at h
    by_cases hbase : e - s ≤ p
    · rw [if_pos hbase] at h
      obtain rfl : (s + e) / 2 = t := by simpa using h
      constructor <;> linarith
    · rw [if_neg hbase] at h
      set m1 := s + (e - s) / 3 with hm1
      set m2 := s + 2 * (e - s) / 3 with hm2
      by_cases hd : calculateDistance island1 island2 m1 < calculateDistance island1 island2 m2
      · rw [if_pos hd] at h
        have := ih s m2 p t (by rw [hm2]; linarith) h
        constructor <;> [exact this.1; linarith [this.2, hm2 ▸ this.2]]
      · rw [if_neg hd] at h
        have := ih m1 e p t (by rw [hm1]; linarith) h
        constructor <;> [linarith [hm1 ▸ this.1]; exact this.2]

theorem findMinimumDistanceTime_isSome (island1 island2 : Island ℝ) :
    ∀ (n : ℕ) (s e p : ℝ), 0 < p → e - s ≤ p * (3 / 2) ^ n →
      (findMinimumDistanceTime island1 island2 (n + 1) s e p).isSome := by
  intro n
  induction n with
  | zero =>
    intro s e p hp hlen
    rw [findMinimumDistanceTime, if_pos (by simpa using hlen)]
    simp
  | succ n ih =>
    intro s e p hp hlen
    rw [findMinimumDistanceTime]
    by_cases hbase : e - s ≤ p
    · rw [if_pos hbase]; simp
    · rw [if_neg hbase]
      have hshrink1 : (s + 2 * (e - s) / 3) - s ≤ p * (3 / 2) ^ n := by
        have : (2 / 3 : ℝ) * (e - s) ≤ 2 / 3 * (p * (3 / 2) ^ (n + 1)) := by
          apply mul_le_mul_of_nonneg_left hlen; norm_num
        calc (s + 2 * (e - s) / 3) - s = (2 / 3 : ℝ) * (e - s) := by ring
          _ ≤ 2 / 3 * (p * (3 / 2) ^ (n + 1)) := this
          _ = p * (3 / 2) ^ n := by ring
      have hshrink2 : e - (s + (e - s) / 3) ≤ p * (3 / 2) ^ n := by
        have : (2 / 3 : ℝ) * (e - s) ≤ 2 / 3 * (p * (3 / 2) ^ (n + 1)) := by
          apply mul_le_mul_of_nonneg_left hlen; norm_num
        calc e - (s + (e - s) / 3) = (2 / 3 : ℝ) * (e - s) := by ring
          _ ≤ 2 / 3 * (p * (3 / 2) ^ (n + 1)) := this
          _ = p * (3 / 2) ^ n := by ring
      by_cases hd : calculateDistance island1 island2 (s + (e - s) / 3)
          < calculateDistance island1 island2 (s + 2 * (e - s) / 3)
      · rw [if_pos hd]; exact ih s _ p hp hshrink1
      · rw [if_neg hd]; exact ih _ e p hp hshrink2

/-- C9: for every pair of islands and every interval with `startTime ≤
endTime` at precision 1, the ternary-search recursion of
`findMinimumDistanceTime` terminates (some finite recursion budget reaches
the base case, since every call shrinks the bracket to two-thirds of its
length), and any returned time lies within `[startTime, endTime]`. -/
theorem findMinimumDistanceTime_spec (island1 island2 : Island ℝ) (s e : ℝ)
    (hse : s ≤ e) :
    (∃ (fuel : ℕ) (t : ℝ), findMinimumDistanceTime island1 island2 fuel s e 1 = some t)
      ∧ ∀ (fuel : ℕ) (t : ℝ),
          findMinimumDistanceTime island1 island2 fuel s e 1 = some t →
            s ≤ t ∧ t ≤ e := by
  constructor
  · obtain ⟨n, hn⟩ : ∃ n : ℕ, e - s < (3 / 2 : ℝ) ^ n :=
      pow_unbounded_of_one_lt (e - s) (by norm_num)
    have h := findMinimumDistanceTime_isSome island1 island2 n s e 1 one_pos
      (by rw [one_mul]; exact le_of_lt hn)
    obtain ⟨t, ht⟩ := Option.isSome_iff_exists.mp h
    exact ⟨n + 1, t, ht⟩
  · intro fuel t h
    exact findMinimumDistanceTime_mem island1 island2 fuel s e 1 t hse h

/-- Witness for C9 at a concrete pair of islands and interval. -/
theorem findMinimumDistanceTime_spec_witness :
    (0 : ℝ) ≤ 10 ∧
      (∃ (fuel : ℕ) (t : ℝ),
        findMinimumDistanceTime ⟨1, "A", "red", 10, [⟨365⟩], true⟩
          ⟨2, "B", "blue", 10, [⟨120⟩], true⟩ fuel 0 10 1 = some t) := by
  refine ⟨by norm_num, ?_⟩
  exact (findMinimumDistanceTime_spec ⟨1, "A", "red", 10, [⟨365⟩], true⟩
    ⟨2, "B", "blue", 10, [⟨120⟩], true⟩ 0 10 (by norm_num)).1

theorem gcdLoop_eq_gcd (a b : ℕ) : gcdLoop a b = Nat.gcd a b := by
  induction a, b using gcdLoop.induct with
  | case1 a =>
    rw [gcdLoop]; simp
  | case2 a b hb ih =>
    rw [gcdLoop, if_neg hb, ih, Nat.gcd_comm b (a % b), ← Nat.gcd_rec b a,
      Nat.gcd_comm b a]

theorem jsLcm_eq_lcm (a b : ℕ) : jsLcm a b = Nat.lcm a b := by
  rw [jsLcm, gcdLoop_eq_gcd, Nat.lcm]

theorem foldl_lcm_dvd (l : List (Epicycle ℤ)) (init : ℕ) :
    (init ∣ l.foldl (fun acc d => Nat.lcm acc d.period.natAbs) init)
      ∧ (∀ c ∈ l, c.period.natAbs ∣ l.foldl (fun acc d => Nat.lcm acc d.period.natAbs) init)
      ∧ ∀ m : ℕ, init ∣ m → (∀ c ∈ l, c.period.natAbs ∣ m) →
          l.foldl (fun acc d => Nat.lcm acc d.period.natAbs) init ∣ m := by
  induction l generalizing init with
  | nil => exact ⟨dvd_refl _, by simp, fun m hm _ => hm⟩
  | cons c l ih =>
    obtain ⟨h1, h2, h3⟩ := ih (Nat.lcm init c.period.natAbs)
    refine ⟨dvd_trans (Nat.dvd_lcm_left _ _) h1, ?_, ?_⟩
    · intro d hd
      rcases List.mem_cons.mp hd with rfl | hd
      · exact dvd_trans (Nat.dvd_lcm_right _ _) h1
      · exact h2 d hd
    · intro m hinit hall
      exact h3 m (Nat.lcm_dvd hinit (hall c (List.mem_cons_self c l)))
        fun d hd => hall d (List.mem_cons_of_mem c hd)

/-- C7: `calculateOrbitalPeriod` of an empty cycle list is 0, of a single
cycle is that period's magnitude, and for any non-empty list of cycles with
non-zero integral periods it is exactly the least common multiple of the
absolute periods: every period magnitude divides it and it divides every
common multiple.  (The embedding computes in exact integer arithmetic, which
is what the Euclidean float computation performs on integral inputs.) -/
theorem calculateOrbitalPeriod_spec :
    (calculateOrbitalPeriod [] = 0)
      ∧ (∀ p : ℤ, calculateOrbitalPeriod [⟨p⟩] = p.natAbs)
      ∧ ∀ cycles : List (Epicycle ℤ), cycles ≠ [] → (∀ c ∈ cycles, c.period ≠ 0) →
          (∀ c ∈ cycles, c.period.natAbs ∣ calculateOrbitalPeriod cycles)
            ∧ ∀ m : ℕ, (∀ c ∈ cycles, c.period.natAbs ∣ m) →
                calculateOrbitalPeriod cycles ∣ m := by
  refine ⟨rfl, fun p => rfl, ?_⟩
  intro cycles hne _hnz
  match cycles, hne with
  | c :: rest, _ =>
    have hfold : calculateOrbitalPeriod (c :: rest)
        = (c :: rest).foldl (fun acc d => Nat.lcm acc d.period.natAbs) c.period.natAbs := by
      match rest with
      | [] =>
        simp [calculateOrbitalPeriod, Nat.lcm_self]
      | d :: rest' =>
        show (c :: d :: rest').foldl (fun acc e => jsLcm acc e.period.natAbs) _ = _
        congr 1
        funext acc e
        exact jsLcm_eq_lcm acc e.period.natAbs
    obtain ⟨h1, h2, h3⟩ := foldl_lcm_dvd (c :: rest) c.period.natAbs
    rw [hfold]
    exact ⟨h2, fun m hall => h3 m (hall c (List.mem_cons_self c rest)) hall⟩

/-- Witness for C7 at the cycle list `[300, -150]`: the orbital period 300
divides and is divided correctly. -/
theorem calculateOrbitalPeriod_spec_witness :
    (300 : ℤ).natAbs ∣ calculateOrbitalPeriod [⟨300⟩, ⟨-150⟩]
      ∧ calculateOrbitalPeriod [⟨300⟩, ⟨-150⟩] ∣ 600 := by
  have h := calculateOrbitalPeriod_spec.2.2 [⟨300⟩, ⟨-150⟩] (by simp)
    (by intro c hc; rcases List.mem_cons.mp hc with rfl | hc <;> simp_all)
  exact ⟨h.1 ⟨300⟩ (List.mem_cons_self _ _), h.2 600 (by
    intro c hc
    rcases List.mem_cons.mp hc with rfl | hc
    · decide
    · rcases List.mem_cons.mp hc with rfl | hc
      · decide
      · simp at hc)⟩

theorem charVal_digitChar (d : ℕ) (hd : d < 10) : charVal (digitChar d) = d := by
  interval_cases d <;> decide

theorem isDigitChar_digitChar (d : ℕ) (hd : d < 10) : isDigitChar (digitChar d) = true := by
  interval_cases d <;> decide

theorem not_isSpaceChar_of_isDigitChar (c : Char) (h : isDigitChar c = true) :
    isSpaceChar c = false := by
  simp only [isDigitChar, Bool.and_eq_true, decide_eq_true_eq] at h
  have h1 : ¬ (c = ' ') := fun hc => by rw [hc] at h; exact absurd h (by decide)
  have h2 : ¬ (c = '\t') := fun hc => by rw [hc] at h; exact absurd h (by decide)
  have h3 : ¬ (c = '\n') := fun hc => by rw [hc] at h; exact absurd h (by decide)
  have h4 : ¬ (c = '\r') := fun hc => by rw [hc] at h; exact absurd h (by decide)
  simp [isSpaceChar, h1, h2, h3, h4]

theorem natToChars_ne_nil (n : ℕ) : natToChars n ≠ [] := by
  by_cases h : n = 0
  · simp [natToChars, h]
  · simp only [natToChars, if_neg h]
    intro hcon
    rw [List.reverse_eq_nil_iff, List.map_eq_nil_iff] at hcon
    exact (Nat.digits_ne_nil_iff_ne_zero.mpr h) hcon

theorem natToChars_digits (n : ℕ) : ∀ c ∈ natToChars n, isDigitChar c = true := by
  by_cases h : n = 0
  · simp [natToChars, h]
    decide
  · simp only [natToChars, if_neg h]
    intro c hc
    simp only [List.mem_reverse, List.mem_map] at hc
    obtain ⟨d, hd, rfl⟩ := hc
    exact isDigitChar_digitChar d (Nat.digits_lt_base (by norm_num) hd)

theorem digitsVal_append_singleton (l : List Char) (c : Char) :
    digitsVal (l ++ [c]) = 10 * digitsVal l + charVal c := by
  simp [digitsVal, List.foldl_append]

theorem digitsVal_reverse_map (ds : List ℕ) (h : ∀ d ∈ ds, d < 10) :
    digitsVal ((ds.map digitChar).reverse) = Nat.ofDigits 10 ds := by
  induction ds with
  | nil => simp [digitsVal]
  | cons d ds ih =>
    have hds : ∀ e ∈ ds, e < 10 := fun e he => h e (List.mem_cons_of_mem d he)
    simp only [List.map_cons, List.reverse_cons, digitsVal_append_singleton,
      ih hds, Nat.ofDigits_cons, charVal_digitChar d (h d (List.mem_cons_self d ds))]
    ring

theorem digitsVal_natToChars (n : ℕ) : digitsVal (natToChars n) = n := by
  by_cases h : n = 0
  · subst h; decide
  · rw [natToChars, if_neg h,
      digitsVal_reverse_map _ (fun d hd => Nat.digits_lt_base (by norm_num) hd),
      Nat.ofDigits_digits]

theorem digitsVal_replicate_zero (j : ℕ) (l : List Char) :
    digitsVal (List.replicate j (digitChar 0) ++ l) = digitsVal l := by
  induction j with
  | zero => simp
  | succ j ih =>
    rw [List.replicate_succ, List.cons_append]
    show (List.replicate j (digitChar 0) ++ l).foldl (fun a c => 10 * a + charVal c)
      (10 * 0 + charVal (digitChar 0)) = digitsVal l
    have : 10 * 0 + charVal (digitChar 0) = 0 := by decide
    rw [this]
    exact ih

theorem digitsVal_padStart (n w : ℕ) :
    digitsVal (padStart (natToChars n) w (digitChar 0)) = n := by
  rw [padStart, digitsVal_replicate_zero, digitsVal_natToChars]

theorem natToChars_length_le (n w : ℕ) (hw : 1 ≤ w) (hn : n < 10 ^ w) :
    (natToChars n).length ≤ w := by
  by_cases h : n = 0
  · simp [natToChars, h, hw]
  · rw [natToChars, if_neg h, List.length_reverse, List.length_map,
      Nat.digits_len 10 n (by norm_num) h]
    have := (Nat.lt_pow_iff_log_lt (by norm_num : (1 : ℕ) < 10) h).mp hn
    omega

theorem padStart_length (l : List Char) (w : ℕ) (c : Char) (h : l.length ≤ w) :
    (padStart l w c).length = w := by
  rw [padStart, List.length_append, List.length_replicate]
  omega

theorem padStart_digits (n w : ℕ) :
    ∀ c ∈ padStart (natToChars n) w (digitChar 0), isDigitChar c = true := by
  intro c hc
  rw [padStart] at hc
  rcases List.mem_append.mp hc with hc | hc
  · rw [List.eq_of_mem_replicate hc]; decide
  · exact natToChars_digits n c hc

theorem jsTrunc_of_nonneg (q : ℚ) (h : 0 ≤ q) : jsTrunc q = ⌊q⌋ := by
  rw [jsTrunc, if_neg (not_lt.mpr h)]

theorem floor_nat_add_fract (a : ℕ) (x : ℚ) (h0 : 0 ≤ x) (h1 : x < 1) :
    ⌊(a : ℚ) + x⌋ = a := by
  rw [add_comm, Int.floor_add_nat]
  rw [show ⌊x⌋ = 0 from by rw [Int.floor_eq_zero_iff]; exact ⟨h0, h1⟩]
  simp

theorem intToChars_natCast (n : ℕ) : intToChars (n : ℤ) = natToChars n := by
  rw [intToChars, if_neg (by simp), Int.natAbs_ofNat]

theorem formatTime_canonical (y mm dd h : ℕ) (hm : mm < 5) (hd : dd < 73)
    (hh : h < 24) :
    formatTime (((8760 * y + 1752 * mm + 24 * dd + h : ℕ) : ℚ) * 1000 / 24) true
      = String.mk (padStart (natToChars y) 4 (digitChar 0) ++ ['-'] ++
          padStart (natToChars (mm + 1)) 2 (digitChar 0) ++ ['-'] ++
          padStart (natToChars (dd + 1)) 2 (digitChar 0) ++
          (if 0 < h then [' '] ++ natToChars h ++ ['h'] else [])) := by
  have cm : (mm : ℚ) ≤ 4 := by exact_mod_cast Nat.lt_succ_iff.mp hm
  have cd : (dd : ℚ) ≤ 72 := by exact_mod_cast Nat.lt_succ_iff.mp hd
  have ch : (h : ℚ) ≤ 23 := by exact_mod_cast Nat.lt_succ_iff.mp hh
  have hdiv : ((8760 * y + 1752 * mm + 24 * dd + h : ℕ) : ℚ) * 1000 / 24 / 1000
      = ((365 * y + 73 * mm + dd : ℕ) : ℚ) + (h : ℚ) / 24 := by
    push_cast
    field_simp
    ring
  set A : ℚ := ((365 * y + 73 * mm + dd : ℕ) : ℚ) + (h : ℚ) / 24 with hA
  have hA0 : 0 ≤ A := by rw [hA]; positivity
  have hyears : ⌊A / 365⌋ = (y : ℤ) := by
    have hx : A / 365 = (y : ℚ) + (((73 * mm + dd : ℕ) : ℚ) + (h : ℚ) / 24) / 365 := by
      rw [hA]; push_cast; ring
    rw [hx]
    have := floor_nat_add_fract y ((((73 * mm + dd : ℕ) : ℚ) + (h : ℚ) / 24) / 365)
      (by positivity) (by push_cast; rw [div_lt_one (by norm_num)]; linarith)
    exact_mod_cast this
  have hmod365 : jsMod A 365 = ((73 * mm + dd : ℕ) : ℚ) + (h : ℚ) / 24 := by
    rw [jsMod, jsTrunc_of_nonneg _ (by positivity), hyears, hA]
    push_cast
    ring
  have hmonths : ⌊(((73 * mm + dd : ℕ) : ℚ) + (h : ℚ) / 24) / 73⌋ = (mm : ℤ) := by
    have hx : (((73 * mm + dd : ℕ) : ℚ) + (h : ℚ) / 24) / 73
        = (mm : ℚ) + (((dd : ℕ) : ℚ) + (h : ℚ) / 24) / 73 := by push_cast; ring
    rw [hx]
    have := floor_nat_add_fract mm ((((dd : ℕ) : ℚ) + (h : ℚ) / 24) / 73)
      (by positivity) (by rw [div_lt_one (by norm_num)]; linarith)
    exact_mod_cast this
  have hmod73 : jsMod (((73 * mm + dd : ℕ) : ℚ) + (h : ℚ) / 24) 73
      = ((dd : ℕ) : ℚ) + (h : ℚ) / 24 := by
    rw [jsMod, jsTrunc_of_nonneg _ (by positivity), hmonths]
    push_cast
    ring
  have hdays : ⌊((dd : ℕ) : ℚ) + (h : ℚ) / 24⌋ = (dd : ℤ) := by
    have := floor_nat_add_fract dd ((h : ℚ) / 24)
      (by positivity) (by rw [div_lt_one (by norm_num)]; linarith)
    exact_mod_cast this
  have hmod1 : jsMod A 1 * 24 = (h : ℚ) := by
    have hfl : ⌊A / 1⌋ = ((365 * y + 73 * mm + dd : ℕ) : ℤ) := by
      rw [div_one, hA]
      exact floor_nat_add_fract _ ((h : ℚ) / 24)
        (by positivity) (by rw [div_lt_one (by norm_num)]; linarith)
    rw [jsMod, jsTrunc_of_nonneg _ (by rw [div_one]; exact hA0), hfl, hA]
    push_cast
    ring
  have hhours : ⌊jsMod A 1 * 24⌋ = (h : ℤ) := by
    rw [hmod1]
    exact Int.floor_natCast h
  rw [formatTime]
  simp only [hdiv]
  rw [hyears, hmod365, hmonths, hmod73, hdays, hhours]
  have hm1 : ((mm : ℤ) + 1) = ((mm + 1 : ℕ) : ℤ) := by push_cast; ring
  have hd1 : ((dd : ℤ) + 1) = ((dd + 1 : ℕ) : ℤ) := by push_cast; ring
  rw [hm1, hd1, intToChars_natCast, intToChars_natCast, intToChars_natCast]
  by_cases hp : 0 < h
  · rw [if_pos hp]
    have : (true && decide (0 < (h : ℤ))) = true := by
      simp only [Bool.true_and, decide_eq_true_eq]
      exact_mod_cast hp
    rw [this, if_pos rfl, intToChars_natCast]
    simp
  · rw [if_neg hp]
    have : (true && decide (0 < (h : ℤ))) = false := by
      simp only [Bool.true_and, decide_eq_false_iff_not]
      exact_mod_cast hp
    rw [this]
    simp

theorem exists_four_chars (l : List Char) (h : l.length = 4) :
    ∃ a b c d, l = [a, b, c, d] := by
  rcases l with _ | ⟨a, _ | ⟨b, _ | ⟨c, _ | ⟨d, _ | ⟨e, tl⟩⟩⟩⟩⟩ <;> simp_all

theorem exists_two_chars (l : List Char) (h : l.length = 2) :
    ∃ a b, l = [a, b] := by
  rcases l with _ | ⟨a, _ | ⟨b, _ | ⟨c, tl⟩⟩⟩ <;> simp_all

theorem takeWhile_append_all (p : Char → Bool) (l1 l2 : List Char)
    (h : ∀ c ∈ l1, p c = true) :
    (l1 ++ l2).takeWhile p = l1 ++ l2.takeWhile p := by
  induction l1 with
  | nil => simp
  | cons c l1 ih =>
    simp [List.takeWhile_cons, h c (List.mem_cons_self c l1),
      ih fun d hd => h d (List.mem_cons_of_mem c hd)]

theorem dropWhile_append_all (p : Char → Bool) (l1 l2 : List Char)
    (h : ∀ c ∈ l1, p c = true) :
    (l1 ++ l2).dropWhile p = l2.dropWhile p := by
  induction l1 with
  | nil => simp
  | cons c l1 ih =>
    simp [List.dropWhile_cons, h c (List.mem_cons_self c l1),
      ih fun d hd => h d (List.mem_cons_of_mem c hd)]

theorem parseHoursPart_canonical (h : ℕ) :
    parseHoursPart (' ' :: (natToChars h ++ ['h'])) = some h := by
  have hdig : ∀ c ∈ natToChars h, isDigitChar c = true := natToChars_digits h
  obtain ⟨c0, cs, hcons⟩ : ∃ c0 cs, natToChars h = c0 :: cs := by
    rcases hlist : natToChars h with _ | ⟨c0, cs⟩
    · exact absurd hlist (natToChars_ne_nil h)
    · exact ⟨c0, cs, rfl⟩
  have hc0 : isDigitChar c0 = true := hdig c0 (by rw [hcons]; exact List.mem_cons_self _ _)
  have hc0sp : isSpaceChar c0 = false := not_isSpaceChar_of_isDigitChar c0 hc0
  have hsptrue : isSpaceChar ' ' = true := by decide
  have hTW : List.takeWhile isSpaceChar (' ' :: (natToChars h ++ ['h'])) = [' '] := by
    rw [hcons, List.cons_append]
    simp [List.takeWhile_cons, hsptrue, hc0sp]
  have hDW : List.dropWhile isSpaceChar (' ' :: (natToChars h ++ ['h']))
      = natToChars h ++ ['h'] := by
    rw [hcons, List.cons_append]
    simp [List.dropWhile_cons, hsptrue, hc0sp]
  have hTD : List.takeWhile isDigitChar (natToChars h ++ ['h']) = natToChars h := by
    rw [takeWhile_append_all _ _ _ hdig]
    simp [List.takeWhile_cons, show isDigitChar 'h' = false from by decide]
  rw [parseHoursPart]
  · simp only [hTW, hDW, hTD]
    rw [if_neg (by simp), if_neg (natToChars_ne_nil h), List.drop_left, if_pos rfl,
      digitsVal_natToChars]
  · simp

theorem parse_canonical (y m d h : ℕ) (hy : y < 10000) (hm1 : 1 ≤ m) (hm5 : m ≤ 5)
    (hd1 : 1 ≤ d) (hd73 : d ≤ 73) (hh : h < 24) :
    parseTimeString (String.mk (padStart (natToChars y) 4 (digitChar 0) ++ ['-'] ++
        padStart (natToChars m) 2 (digitChar 0) ++ ['-'] ++
        padStart (natToChars d) 2 (digitChar 0) ++
        (if 0 < h then [' '] ++ natToChars h ++ ['h'] else [])))
      = some (((y : ℚ) * 365 + ((m : ℚ) - 1) * 73 + ((d : ℚ) - 1) + (h : ℚ) / 24)
          * 1000) := by
  obtain ⟨a, b, c, e, hy4⟩ := exists_four_chars (padStart (natToChars y) 4 (digitChar 0))
    (padStart_length _ 4 _ (natToChars_length_le y 4 (by norm_num) hy))
  obtain ⟨f, g, hm2⟩ := exists_two_chars (padStart (natToChars m) 2 (digitChar 0))
    (padStart_length _ 2 _ (natToChars_length_le m 2 (by norm_num) (by omega)))
  obtain ⟨i, j, hd2⟩ := exists_two_chars (padStart (natToChars d) 2 (digitChar 0))
    (padStart_length _ 2 _ (natToChars_length_le d 2 (by norm_num) (by omega)))
  have hya : isDigitChar a = true := by
    apply padStart_digits y 4; rw [hy4]; simp
  have hyb : isDigitChar b = true := by
    apply padStart_digits y 4; rw [hy4]; simp
  have hyc : isDigitChar c = true := by
    apply padStart_digits y 4; rw [hy4]; simp
  have hye : isDigitChar e = true := by
    apply padStart_digits y 4; rw [hy4]; simp
  have hmf : isDigitChar f = true := by
    apply padStart_digits m 2; rw [hm2]; simp
  have hmg : isDigitChar g = true := by
    apply padStart_digits m 2; rw [hm2]; simp
  have hdi : isDigitChar i = true := by
    apply padStart_digits d 2; rw [hd2]; simp
  have hdj : isDigitChar j = true := by
    apply padStart_digits d 2; rw [hd2]; simp
  have hvy : digitsVal [a, b, c, e] = y := by rw [← hy4, digitsVal_padStart]
  have hvm : digitsVal [f, g] = m := by rw [← hm2, digitsVal_padStart]
  have hvd : digitsVal [i, j] = d := by rw [← hd2, digitsVal_padStart]
  have c1 : ¬ (m < 1) := by omega
  have c2 : ¬ (m > 5) := by omega
  have c3 : ¬ (d < 1) := by omega
  have c4 : ¬ (d > 73) := by omega
  have c5 : ¬ (h ≥ 24) := by omega
  rw [hy4, hm2, hd2]
  by_cases hp : 0 < h
  · rw [if_pos hp]
    simp only [List.cons_append, List.nil_append, List.append_assoc,
      List.singleton_append]
    rw [parseTimeString]
    simp only [hya, hyb, hyc, hye, hmf, hmg, hdi, hdj, Bool.and_self, Bool.true_and,
      Bool.and_true, hvy, hvm, hvd, c1, c2, c3, c4, c5, decide_False,
      Bool.or_self, Bool.false_or, Bool.or_false, if_false, decide_True,
      eq_self_iff_true, if_true]
    rw [parseHoursPart_canonical h]
    simp [c5]
  · rw [if_neg hp]
    have h0 : h = 0 := by omega
    subst h0
    simp only [List.cons_append, List.nil_append, List.append_assoc,
      List.singleton_append, List.append_nil]
    rw [parseTimeString]
    simp only [hya, hyb, hyc, hye, hmf, hmg, hdi, hdj, Bool.and_self, Bool.true_and,
      Bool.and_true, hvy, hvm, hvd, c1, c2, c3, c4, c5, decide_False,
      Bool.or_self, Bool.false_or, Bool.or_false, if_false, decide_True,
      eq_self_iff_true, if_true]
    rw [show parseHoursPart [] = some 0 from rfl]
    simp [c5]

/-- C8: calendar round-trip.  For every non-negative time that is a whole
number of internal hours (`k * 1000 / 24` time-units) within the 4-digit
year range (year 0 up to year 9999), parsing the formatted time string
returns exactly the original time. -/
theorem parseTimeString_formatTime_roundtrip (k : ℕ) (hk : k < 87600000) :
    parseTimeString (formatTime ((k : ℚ) * 1000 / 24) true)
      = some ((k : ℚ) * 1000 / 24) := by
  obtain ⟨y, mm, dd, h, hk2, hy, hm, hd, hh⟩ :
      ∃ y mm dd h, k = 8760 * y + 1752 * mm + 24 * dd + h
        ∧ y < 10000 ∧ mm < 5 ∧ dd < 73 ∧ h < 24 :=
    ⟨k / 8760, k % 8760 / 1752, k % 8760 % 1752 / 24, k % 8760 % 1752 % 24,
      by omega, by omega, by omega, by omega, by omega⟩
  rw [show ((k : ℚ)) = ((8760 * y + 1752 * mm + 24 * dd + h : ℕ) : ℚ) from by
    rw [← hk2]]
  rw [formatTime_canonical y mm dd h hm hd hh]
  rw [parse_canonical y (mm + 1) (dd + 1) h hy (by omega) (by omega) (by omega)
    (by omega) hh]
  congr 1
  push_cast
  field_simp
  ring

/-- Witness for C8 at the concrete hour count 20669 (year 2, month 4,
day 11, hour 5). -/
theorem parseTimeString_formatTime_roundtrip_witness :
    (20669 : ℕ) < 87600000 ∧
      parseTimeString (formatTime ((20669 : ℚ) * 1000 / 24) true)
        = some ((20669 : ℚ) * 1000 / 24) :=
  ⟨by norm_num, parseTimeString_formatTime_roundtrip 20669 (by norm_num)⟩

/-- C4: the Metropolis criterion of `optimizeIsland`'s annealing loop.  For
a uniform draw `u ∈ [0, 1)`: a candidate whose score is less than or equal
to the current score is accepted regardless of the draw, and a strictly
worse candidate is accepted exactly when
`u < exp((currentScore - newScore) / temperature)`. -/
theorem acceptsCandidate_iff (currentScore newScore temperature u : ℝ)
    (h0 : 0 ≤ u) (h1 : u < 1) :
    acceptsCandidate currentScore newScore temperature u
      ↔ (newScore ≤ currentScore
          ∨ (currentScore < newScore
              ∧ u < Real.exp ((currentScore - newScore) / temperature))) := by
  rw [acceptsCandidate, acceptanceProbability]
  by_cases hgt : newScore > currentScore
  · rw [if_pos hgt]
    constructor
    · intro h
      exact Or.inr ⟨hgt, h⟩
    · rintro (hle | ⟨_, hlt⟩)
      · linarith
      · exact hlt
  · rw [if_neg hgt]
    push_neg at hgt
    constructor
    · intro _
      exact Or.inl hgt
    · intro _
      exact h1

/-- Witness for C4: with current score 1, candidate score 0, any positive
draw below 1 is accepted. -/
theorem acceptsCandidate_iff_witness : acceptsCandidate 1 0 5 (1 / 2) :=
  (acceptsCandidate_iff 1 0 5 (1 / 2) (by norm_num) (by norm_num)).mpr
    (Or.inl (by norm_num))

theorem mapGet_mapSet_isSome {α : Type} (m : List (String × α)) (k k' : String)
    (v : α) :
    (mapGet (mapSet m k v) k').isSome ↔ (mapGet m k').isSome ∨ k = k' := by
  induction m with
  | nil =>
    by_cases h : k = k' <;> simp [mapSet, mapGet, h]
  | cons e rest ih =>
    obtain ⟨k0, v0⟩ := e
    by_cases h0 : k0 = k
    · subst h0
      by_cases h1 : k0 = k' <;> simp [mapSet, mapGet, h1]
    · by_cases h1 : k0 = k'
      · subst h1
        simp [mapSet, mapGet, h0]
      · simp [mapSet, mapGet, h0, h1, ih]

theorem mapGet_mapModify_isSome {α : Type} (m : List (String × α)) (k k' : String)
    (f : α → α) :
    (mapGet (mapModify m k f) k').isSome = (mapGet m k').isSome := by
  induction m with
  | nil => simp [mapModify, mapGet]
  | cons e rest ih =>
    obtain ⟨k0, v0⟩ := e
    by_cases h0 : k0 = k
    · subst h0
      by_cases h1 : k0 = k' <;> simp [mapModify, mapGet, h1]
    · by_cases h1 : k0 = k'
      · subst h1
        simp [mapModify, mapGet, h0]
      · simp [mapModify, mapGet, h0, h1, ih]

theorem mapGet_map_snd {α β : Type} (g : α → β) (m : List (String × α)) (k : String) :
    mapGet (m.map fun e => (e.1, g e.2)) k = (mapGet m k).map g := by
  induction m with
  | nil => simp [mapGet]
  | cons e rest ih =>
    obtain ⟨k0, v0⟩ := e
    by_cases h : k0 = k <;> simp [mapGet, h, ih]

theorem processConjunction_keys (m : List (String × ConjunctionStats))
    (conj : Conjunction) (k : String) :
    (mapGet (processConjunction m conj) k).isSome = (mapGet m k).isSome :=
  mapGet_mapModify_isSome m _ k _

theorem foldl_processConjunction_keys (conjs : List Conjunction)
    (m : List (String × ConjunctionStats)) (k : String) :
    (mapGet (conjs.foldl processConjunction m) k).isSome = (mapGet m k).isSome := by
  induction conjs generalizing m with
  | nil => rfl
  | cons c rest ih => rw [List.foldl_cons, ih, processConjunction_keys]

theorem foldl_mapSet_pairs_isSome (ps : List (Island ℚ × Island ℚ))
    (init : List (String × ConjunctionStats)) (k : String) :
    (mapGet (ps.foldl (fun m p => mapSet m (getPairKey p.1.id p.2.id)
        (zeroStats p.1 p.2)) init) k).isSome
      ↔ (mapGet init k).isSome ∨ ∃ p ∈ ps, getPairKey p.1.id p.2.id = k := by
  induction ps generalizing init with
  | nil => simp
  | cons p rest ih =>
    rw [List.foldl_cons, ih]
    rw [mapGet_mapSet_isSome]
    constructor
    · rintro ((h | h) | ⟨q, hq, hk⟩)
      · exact Or.inl h
      · exact Or.inr ⟨p, List.mem_cons_self p rest, h⟩
      · exact Or.inr ⟨q, List.mem_cons_of_mem p hq, hk⟩
    · rintro (h | ⟨q, hq, hk⟩)
      · exact Or.inl (Or.inl h)
      · rcases List.mem_cons.mp hq with rfl | hq
        · exact Or.inl (Or.inr hk)
        · exact Or.inr ⟨q, hq, hk⟩

/-- C2 (amended): `analyzeConjunctions` takes no target-pair argument (the
`targetPairs` list passed by `evaluateConfig` is ignored at run time); for
every detector, island list and parameters, the returned map contains
exactly one entry per unordered pair of islands — a key is present iff it
is the pair key of some unordered island pair, regardless of any target
list. -/
theorem analyzeConjunctions_keys (calcUpcoming : ℚ → ℚ → List Conjunction)
    (islands : List (Island ℚ)) (params : AnalysisParams) (k : String) :
    (mapGet (analyzeConjunctions calcUpcoming islands params) k).isSome
      ↔ ∃ p ∈ allPairs islands, getPairKey p.1.id p.2.id = k := by
  rw [analyzeConjunctions]
  simp only [mapGet_map_snd, Option.isSome_map']
  rw [foldl_processConjunction_keys, foldl_mapSet_pairs_isSome]
  simp [mapGet]

theorem computeIntervals_totalConjunctions (d : ℚ) (ps : ConjunctionStats) :
    (computeIntervals d ps).totalConjunctions = ps.totalConjunctions := by
  rw [computeIntervals]
  split <;> rfl

theorem chunkStarts_0_1000 : chunkStarts 0 1000 1000 = [0] := by
  rw [chunkStarts]
  norm_num
  rw [chunkStarts]
  norm_num

/-- Counterexample to C2 as stated: the stats map computed inside
`evaluateConfig` — which supplies `targetPairs = [(1,2)]` to the analyzer —
still contains an entry for the unlisted pair (2,3), and the detector's
conjunction for that pair is aggregated into it (`totalConjunctions = 1`):
conjunction detection is not restricted to the supplied pairs, because
`analyzeConjunctions` accepts no second argument. -/
theorem analyzeConjunctions_targetPairs_counterexample :
    ((mapGet (evaluateConfig detBC 0 [islandA, islandB, islandC]
        [⟨1, 2, none⟩] ⟨1, 1, none⟩).stats "2-3").map
          (fun s => s.totalConjunctions) = some 1)
      ∧ "2-3" ∉ ([⟨1, 2, none⟩] : List ConjunctionTarget).map
          (fun t => getPairKey t.island1Id t.island2Id) := by
  constructor
  · show (mapGet (analyzeConjunctions detBC [islandA, islandB, islandC]
      ⟨1, 1, some ((⌊(0 : ℚ) * 3650000000⌋ : ℤ) : ℚ)⟩) "2-3").map
        (fun s => s.totalConjunctions) = some 1
    rw [analyzeConjunctions]
    simp only [mapGet_map_snd]
    norm_num
    rw [chunkStarts_0_1000]
    exact ⟨_, rfl, by rw [computeIntervals_totalConjunctions]; rfl⟩
  · decide

theorem mapGet_mapSet_eq {α : Type} (m : List (String × α)) (k : String) (v : α) :
    mapGet (mapSet m k v) k = some v := by
  induction m with
  | nil => simp [mapSet, mapGet]
  | cons e rest ih =>
    obtain ⟨k0, v0⟩ := e
    by_cases h : k0 = k
    · subst h
      simp [mapSet, mapGet]
    · simp [mapSet, mapGet, h, ih]

theorem mapGet_mapSet_ne {α : Type} (m : List (String × α)) (k k' : String) (v : α)
    (h : k ≠ k') :
    mapGet (mapSet m k v) k' = mapGet m k' := by
  have h2 : ¬ (k = k') := h
  induction m with
  | nil => simp [mapSet, mapGet, h2]
  | cons e rest ih =>
    obtain ⟨k0, v0⟩ := e
    by_cases h0 : k0 = k
    · subst h0
      simp [mapSet, mapGet, h2]
    · by_cases h1 : k0 = k'
      · subst h1
        simp [mapSet, mapGet, h0]
      · simp [mapSet, mapGet, h0, h1, ih]

theorem scoreStep_fst (stats : List (String × ConjunctionStats))
    (acc : ℝ × List (String × ℝ)) (target : ConjunctionTarget) :
    (scoreStep stats acc target).1 = acc.1 + targetError stats target := by
  simp only [scoreStep, targetError]
  cases hm : mapGet stats (getPairKey target.island1Id target.island2Id) with
  | none => rfl
  | some ps =>
    by_cases hz : ps.totalConjunctions = 0
    · simp [hz]
    · cases hg : target.targetAvgGap with
      | none => simp [hz]
      | some g => simp [hz]

theorem scoreStep_snd (stats : List (String × ConjunctionStats))
    (acc : ℝ × List (String × ℝ)) (target : ConjunctionTarget) :
    (scoreStep stats acc target).2
      = mapSet acc.2 (getPairKey target.island1Id target.island2Id)
          (targetError stats target) := by
  simp only [scoreStep, targetError]
  cases hm : mapGet stats (getPairKey target.island1Id target.island2Id) with
  | none => rfl
  | some ps =>
    by_cases hz : ps.totalConjunctions = 0
    · simp [hz]
    · cases hg : target.targetAvgGap with
      | none => simp [hz]
      | some g => simp [hz]

theorem foldl_scoreStep_fst (stats : List (String × ConjunctionStats))
    (targets : List ConjunctionTarget) :
    ∀ acc : ℝ × List (String × ℝ),
      (targets.foldl (scoreStep stats) acc).1
        = acc.1 + (targets.map (targetError stats)).sum := by
  induction targets with
  | nil => intro acc; simp
  | cons t rest ih =>
    intro acc
    rw [List.foldl_cons, ih, scoreStep_fst]
    simp [add_assoc]

theorem targetError_nonneg (stats : List (String × ConjunctionStats))
    (target : ConjunctionTarget) : 0 ≤ targetError stats target := by
  simp only [targetError]
  cases mapGet stats (getPairKey target.island1Id target.island2Id) with
  | none => norm_num
  | some ps =>
    by_cases hz : ps.totalConjunctions = 0
    · simp [hz]
    · cases target.targetAvgGap with
      | none => simp [hz]
      | some g =>
        simp only [hz, if_false]
        positivity

theorem foldl_scoreStep_errors (stats : List (String × ConjunctionStats))
    (targets : List ConjunctionTarget) :
    ∀ (acc : ℝ × List (String × ℝ)) (k : String) (v : ℝ),
      (mapGet acc.2 k = some v
          ∨ ∃ t ∈ targets, getPairKey t.island1Id t.island2Id = k) →
      (∀ t ∈ targets, getPairKey t.island1Id t.island2Id = k →
          targetError stats t = v) →
      mapGet (targets.foldl (scoreStep stats) acc).2 k = some v := by
  induction targets with
  | nil =>
    intro acc k v hstart _
    rcases hstart with h | ⟨t, ht, _⟩
    · exact h
    · exact absurd ht (List.not_mem_nil t)
  | cons t0 rest ih =>
    intro acc k v hstart hall
    rw [List.foldl_cons]
    by_cases hk : getPairKey t0.island1Id t0.island2Id = k
    · apply ih
      · left
        rw [scoreStep_snd, hk, hall t0 (List.mem_cons_self t0 rest) hk]
        exact mapGet_mapSet_eq _ _ _
      · exact fun t ht => hall t (List.mem_cons_of_mem t0 ht)
    · apply ih
      · rcases hstart with h | ⟨t, ht, htk⟩
        · left
          rw [scoreStep_snd, mapGet_mapSet_ne _ _ _ _ hk]
          exact h
        · rcases List.mem_cons.mp ht with rfl | ht
          · exact absurd htk hk
          · exact Or.inr ⟨t, ht, htk⟩
      · exact fun t ht => hall t (List.mem_cons_of_mem t0 ht)

/-- C1: the score returned by `evaluateConfig` is exactly the sum over all
conjunction targets of the per-target contribution `targetError` (1,000,000
for a pair with no stats entry or zero observed conjunctions — also
recorded as that pair's error — and `|ln(actualAvgGap / targetAvgGap)| *
100` for a target with a defined gap and at least one conjunction); the
score is always non-negative, and for positive gaps the log-ratio
contribution vanishes exactly when the actual average gap equals the
target. -/
theorem evaluateConfig_score_spec (calcUpcoming : ℚ → ℚ → List Conjunction)
    (u : ℚ) (islands : List (Island ℚ)) (targets : List ConjunctionTarget)
    (ap : AnalysisParams) (r : ConfigSearchResult)
    (hr : r = evaluateConfig calcUpcoming u islands targets ap) :
    r.score = (targets.map (targetError r.stats)).sum
      ∧ 0 ≤ r.score
      ∧ (∀ t ∈ targets,
          (∀ ps, mapGet r.stats (getPairKey t.island1Id t.island2Id) = some ps →
            ps.totalConjunctions = 0) →
          targetError r.stats t = 1000000
            ∧ mapGet r.errors (getPairKey t.island1Id t.island2Id) = some 1000000)
      ∧ ∀ t ∈ targets, ∀ g : ℚ, t.targetAvgGap = some g →
          ∀ ps, mapGet r.stats (getPairKey t.island1Id t.island2Id) = some ps →
            ps.totalConjunctions ≠ 0 →
            targetError r.stats t
                = |Real.log ((ps.avgTimeBetweenConjunctions : ℝ) / (g : ℝ))| * 100
              ∧ (0 < ps.avgTimeBetweenConjunctions → 0 < g →
                  (targetError r.stats t = 0 ↔ ps.avgTimeBetweenConjunctions = g)) := by
  have hstats : r.stats = analyzeConjunctions calcUpcoming islands
      { ap with startTimeMs := some ((⌊u * 3650000000⌋ : ℤ) : ℚ) } := by
    rw [hr]; rfl
  have hscore : r.score = (scoreTargets r.stats targets).1 := by
    rw [hr]
    rfl
  have herrors : r.errors = (scoreTargets r.stats targets).2 := by
    rw [hr]
    rfl
  have hsum : r.score = (targets.map (targetError r.stats)).sum := by
    rw [hscore, scoreTargets, foldl_scoreStep_fst]
    simp
  refine ⟨hsum, ?_, ?_, ?_⟩
  · rw [hsum]
    apply List.sum_nonneg
    intro x hx
    obtain ⟨t, _, rfl⟩ := List.mem_map.mp hx
    exact targetError_nonneg _ t
  · intro t ht hzero
    have herr : targetError r.stats t = 1000000 := by
      simp only [targetError]
      cases hm : mapGet r.stats (getPairKey t.island1Id t.island2Id) with
      | none => rfl
      | some ps => simp [hzero ps hm]
    refine ⟨herr, ?_⟩
    rw [herrors, scoreTargets]
    apply foldl_scoreStep_errors
    · exact Or.inr ⟨t, ht, rfl⟩
    · intro t' _ hk'
      simp only [targetError, hk']
      cases hm : mapGet r.stats (getPairKey t.island1Id t.island2Id) with
      | none => rfl
      | some ps => simp [hzero ps hm]
  · intro t _ g hg ps hps hnz
    have herr : targetError r.stats t
        = |Real.log ((ps.avgTimeBetweenConjunctions : ℝ) / (g : ℝ))| * 100 := by
      simp only [targetError, hps, if_neg hnz, hg]
    refine ⟨herr, ?_⟩
    intro hapos hgpos
    rw [herr]
    constructor
    · intro h0
      have hlog : Real.log ((ps.avgTimeBetweenConjunctions : ℝ) / (g : ℝ)) = 0 := by
        have := mul_eq_zero.mp h0
        rcases this with h | h
        · exact abs_eq_zero.mp h
        · norm_num at h
      have hratio : ((ps.avgTimeBetweenConjunctions : ℝ) / (g : ℝ)) = 1 := by
        rcases (Real.log_eq_zero).mp hlog with h | h | h
        · exfalso
          have : (0 : ℝ) < (ps.avgTimeBetweenConjunctions : ℝ) / (g : ℝ) := by
            apply div_pos <;> exact_mod_cast ‹_›
          rw [h] at this
          exact lt_irrefl 0 this
        · exact h
        · exfalso
          have : (0 : ℝ) < (ps.avgTimeBetweenConjunctions : ℝ) / (g : ℝ) := by
            apply div_pos <;> exact_mod_cast ‹_›
          rw [h] at this
          norm_num at this
      have hgne : (g : ℝ) ≠ 0 := by
        exact_mod_cast ne_of_gt hgpos
      have := (div_eq_one_iff_eq hgne).mp hratio
      exact_mod_cast this
    · intro heq
      rw [heq]
      rw [div_self (by exact_mod_cast ne_of_gt hgpos)]
      simp

/-- Witness for C1: with the concrete detector and a single fully matched
target, the score is non-negative. -/
theorem evaluateConfig_score_spec_witness :
    0 ≤ (evaluateConfig detBC 0 [islandA, islandB, islandC]
      [⟨2, 3, some 1⟩] ⟨1, 1, none⟩).score :=
  (evaluateConfig_score_spec detBC 0 [islandA, islandB, islandC]
    [⟨2, 3, some 1⟩] ⟨1, 1, none⟩ _ rfl).2.1

theorem statsBC_totalConj :
    (mapGet (analyzeConjunctions detBC [islandA, islandB, islandC]
      ⟨1, 1, some ((⌊(0 : ℚ) * 3650000000⌋ : ℤ) : ℚ)⟩) "2-3").map
        (fun s => s.totalConjunctions) = some 1 := by
  rw [analyzeConjunctions]
  simp only [mapGet_map_snd]
  norm_num
  rw [chunkStarts_0_1000]
  exact ⟨_, rfl, by rw [computeIntervals_totalConjunctions]; rfl⟩

/-- C10: a conjunction target whose `targetAvgGap` is undefined still
contributes the 1,000,000 penalty (recorded as the pair's error) when its
pair has zero observed conjunctions or no stats entry, and contributes
exactly 0 to the score when the pair has at least one conjunction —
recording a 0 error when it is the only target for its pair — so listing
such a target only imposes a must-conjunct-at-least-once constraint. -/
theorem evaluateConfig_undefined_gap_spec (calcUpcoming : ℚ → ℚ → List Conjunction)
    (u : ℚ) (islands : List (Island ℚ)) (targets : List ConjunctionTarget)
    (ap : AnalysisParams) (r : ConfigSearchResult)
    (hr : r = evaluateConfig calcUpcoming u islands targets ap) :
    ∀ t ∈ targets, t.targetAvgGap = none →
      ((∀ ps, mapGet r.stats (getPairKey t.island1Id t.island2Id) = some ps →
          ps.totalConjunctions = 0) →
        targetError r.stats t = 1000000
          ∧ mapGet r.errors (getPairKey t.island1Id t.island2Id) = some 1000000)
      ∧ (∀ ps, mapGet r.stats (getPairKey t.island1Id t.island2Id) = some ps →
          ps.totalConjunctions ≠ 0 →
          targetError r.stats t = 0
            ∧ ((∀ t' ∈ targets, getPairKey t'.island1Id t'.island2Id
                  = getPairKey t.island1Id t.island2Id → t' = t) →
                mapGet r.errors (getPairKey t.island1Id t.island2Id) = some 0))
      ∧ r.score = (targets.map (targetError r.stats)).sum := by
  intro t ht hgap
  have herrors : r.errors = (scoreTargets r.stats targets).2 := by
    rw [hr]
    rfl
  refine ⟨?_, ?_, ?_⟩
  · intro hzero
    exact ((evaluateConfig_score_spec calcUpcoming u islands targets ap r hr).2.2.1
      t ht hzero)
  · intro ps hps hnz
    have herr : targetError r.stats t = 0 := by
      simp only [targetError, hps, if_neg hnz, hgap]
    refine ⟨herr, ?_⟩
    intro huniq
    rw [herrors, scoreTargets]
    apply foldl_scoreStep_errors
    · exact Or.inr ⟨t, ht, rfl⟩
    · intro t' ht' hk'
      rw [huniq t' ht' hk']
      exact herr
  · exact (evaluateConfig_score_spec calcUpcoming u islands targets ap r hr).1

/-- Witness for C10: the concrete pair (2,3) conjuncts once, so its
gap-less target contributes 0 and records a 0 error. -/
theorem evaluateConfig_undefined_gap_spec_witness :
    targetError (evaluateConfig detBC 0 [islandA, islandB, islandC]
        [⟨2, 3, none⟩] ⟨1, 1, none⟩).stats ⟨2, 3, none⟩ = 0
      ∧ mapGet (evaluateConfig detBC 0 [islandA, islandB, islandC]
          [⟨2, 3, none⟩] ⟨1, 1, none⟩).errors "2-3" = some 0 := by
  obtain ⟨ps, hps, htc⟩ := Option.map_eq_some'.mp statsBC_totalConj
  have hk : getPairKey (2 : ℤ) 3 = "2-3" := by decide
  have h := evaluateConfig_undefined_gap_spec detBC 0 [islandA, islandB, islandC]
    [⟨2, 3, none⟩] ⟨1, 1, none⟩ _ rfl ⟨2, 3, none⟩ (List.mem_cons_self _ _) rfl
  have hps' : mapGet (evaluateConfig detBC 0 [islandA, islandB, islandC]
      [⟨2, 3, none⟩] ⟨1, 1, none⟩).stats (getPairKey (2 : ℤ) 3) = some ps := by
    rw [hk]
    exact hps
  have h2 := h.2.1 ps hps' (by omega)
  refine ⟨h2.1, ?_⟩
  rw [← hk]
  apply h2.2
  intro t' ht' _
  simpa using ht'

theorem mapGet_mapSet_cases {α : Type} (m : List (String × α)) (k0 k : String)
    (v0 v : α) (h : mapGet (mapSet m k0 v0) k = some v) :
    (k0 = k ∧ v = v0) ∨ (k0 ≠ k ∧ mapGet m k = some v) := by
  by_cases hk : k0 = k
  · subst hk
    rw [mapGet_mapSet_eq] at h
    exact Or.inl ⟨rfl, (Option.some_inj.mp h).symm⟩
  · rw [mapGet_mapSet_ne m k0 k v0 hk] at h
    exact Or.inr ⟨hk, h⟩

theorem mapGet_mapModify_eq {α : Type} (m : List (String × α)) (k0 k : String)
    (f : α → α) :
    mapGet (mapModify m k0 f) k
      = if k0 = k then (mapGet m k).map f else mapGet m k := by
  induction m with
  | nil => by_cases h : k0 = k <;> simp [mapModify, mapGet, h]
  | cons e rest ih =>
    obtain ⟨k1, v1⟩ := e
    by_cases h1 : k1 = k0
    · subst h1
      by_cases h2 : k1 = k
      · subst h2
        simp [mapModify, mapGet]
      · simp [mapModify, mapGet, h2, ih]
    · by_cases h2 : k1 = k
      · subst h2
        by_cases h3 : k0 = k1
        · exact absurd h3.symm h1
        · simp [mapModify, mapGet, h1, h3]
      · simp [mapModify, mapGet, h1, h2, ih]

theorem consecGaps_length : ∀ l : List ℚ, (consecGaps l).length = l.length - 1
  | [] => rfl
  | [_] => rfl
  | a :: b :: rest => by
    rw [consecGaps]
    simp only [List.length_cons]
    rw [consecGaps_length (b :: rest)]
    simp

theorem consecGaps_nonneg (l : List ℚ) (hs : List.Pairwise (· ≤ ·) l) :
    ∀ g ∈ consecGaps l, 0 ≤ g := by
  induction l with
  | nil => intro g hg; simp [consecGaps] at hg
  | cons a rest ih =>
    match rest, hs with
    | [], _ => intro g hg; simp [consecGaps] at hg
    | b :: rest', hs =>
      intro g hg
      rw [consecGaps] at hg
      rcases List.mem_cons.mp hg with rfl | hg
      · have hab : a ≤ b := (List.pairwise_cons.mp hs).1 b (List.mem_cons_self b rest')
        have h0 : (0 : ℚ) ≤ b - a := by linarith
        exact div_nonneg h0 (by norm_num)
      · exact ih (List.pairwise_cons.mp hs).2 g hg

theorem foldl_min_rat (l : List ℚ) :
    ∀ a : ℚ, (l.foldl min a = a ∨ l.foldl min a ∈ l)
      ∧ l.foldl min a ≤ a ∧ ∀ g ∈ l, l.foldl min a ≤ g := by
  induction l with
  | nil => intro a; exact ⟨Or.inl rfl, le_refl a, by simp⟩
  | cons b rest ih =>
    intro a
    obtain ⟨hmem, hle, hall⟩ := ih (min a b)
    refine ⟨?_, ?_, ?_⟩
    · rw [List.foldl_cons]
      rcases hmem with h | h
      · rcases min_choice a b with hc | hc
        · exact Or.inl (h.trans hc)
        · refine Or.inr ?_
          rw [h, hc]
          exact List.mem_cons_self b rest
      · exact Or.inr (List.mem_cons_of_mem b h)
    · rw [List.foldl_cons]
      exact hle.trans (min_le_left a b)
    · intro g hg
      rw [List.foldl_cons]
      rcases List.mem_cons.mp hg with rfl | hg
      · exact hle.trans (min_le_right a g)
      · exact hall g hg

theorem foldl_max_rat (l : List ℚ) :
    ∀ a : ℚ, (l.foldl max a = a ∨ l.foldl max a ∈ l)
      ∧ a ≤ l.foldl max a ∧ ∀ g ∈ l, g ≤ l.foldl max a := by
  induction l with
  | nil => intro a; exact ⟨Or.inl rfl, le_refl a, by simp⟩
  | cons b rest ih =>
    intro a
    obtain ⟨hmem, hle, hall⟩ := ih (max a b)
    refine ⟨?_, ?_, ?_⟩
    · rw [List.foldl_cons]
      rcases hmem with h | h
      · rcases max_choice a b with hc | hc
        · exact Or.inl (h.trans hc)
        · refine Or.inr ?_
          rw [h, hc]
          exact List.mem_cons_self b rest
      · exact Or.inr (List.mem_cons_of_mem b h)
    · rw [List.foldl_cons]
      exact (le_max_left a b).trans hle
    · intro g hg
      rw [List.foldl_cons]
      rcases List.mem_cons.mp hg with rfl | hg
      · exact (le_max_right a g).trans hle
      · exact hall g hg

theorem foldl_min_withTop (l : List ℚ) :
    ∀ a : ℚ, l.foldl (fun (acc : WithTop ℚ) (g : ℚ) => min acc (g : WithTop ℚ))
        (a : WithTop ℚ)
      = ((l.foldl min a : ℚ) : WithTop ℚ) := by
  induction l with
  | nil => intro a; rfl
  | cons b rest ih =>
    intro a
    rw [List.foldl_cons, List.foldl_cons, ← WithTop.coe_min, ih]

theorem foldl_mapSet_pairs_length_inv (pairs : List (Island ℚ × Island ℚ)) :
    ∀ init : List (String × ConjunctionStats),
      (∀ k v, mapGet init k = some v →
        v.conjunctionTimes.length = v.totalConjunctions) →
      ∀ k v, mapGet (pairs.foldl (fun m p => mapSet m (getPairKey p.1.id p.2.id)
          (zeroStats p.1 p.2)) init) k = some v →
        v.conjunctionTimes.length = v.totalConjunctions := by
  induction pairs with
  | nil => intro init h; exact h
  | cons p rest ih =>
    intro init h
    rw [List.foldl_cons]
    apply ih
    intro k v hv
    rcases mapGet_mapSet_cases init _ k _ v hv with ⟨_, rfl⟩ | ⟨_, hv'⟩
    · rfl
    · exact h k v hv'

theorem processConjunction_length_inv (m : List (String × ConjunctionStats))
    (conj : Conjunction)
    (h : ∀ k v, mapGet m k = some v →
      v.conjunctionTimes.length = v.totalConjunctions) :
    ∀ k v, mapGet (processConjunction m conj) k = some v →
      v.conjunctionTimes.length = v.totalConjunctions := by
  intro k v hv
  rw [processConjunction, mapGet_mapModify_eq] at hv
  by_cases hk : getPairKey conj.island1Id conj.island2Id = k
  · rw [if_pos hk] at hv
    cases hm : mapGet m k with
    | none => rw [hm] at hv; simp at hv
    | some v0 =>
      rw [hm] at hv
      simp only [Option.map_some', Option.some_inj] at hv
      subst hv
      have := h k v0 hm
      simp [this]
  · rw [if_neg hk] at hv
    exact h k v hv

theorem foldl_processConjunction_length_inv (conjs : List Conjunction) :
    ∀ m : List (String × ConjunctionStats),
      (∀ k v, mapGet m k = some v →
        v.conjunctionTimes.length = v.totalConjunctions) →
      ∀ k v, mapGet (conjs.foldl processConjunction m) k = some v →
        v.conjunctionTimes.length = v.totalConjunctions := by
  induction conjs with
  | nil => intro m h; exact h
  | cons c rest ih =>
    intro m h
    rw [List.foldl_cons]
    exact ih _ (processConjunction_length_inv m c h)

/-- C3 (amended): for every analysis run and island pair with `n ≥ 1`
conjunctions, the aggregator sorts the start times; the average gap is the
mean of the consecutive-pair gaps together with the combined wraparound gap
`first + (simulationDays - last)` **when that wraparound gap is positive**
(it is omitted from the average otherwise, which can only happen when
boundary look-around produced a start outside the window); the min and max
gaps come only from the consecutive-pair gaps, and with a single
conjunction both equal the average. -/
theorem analyzeConjunctions_gap_stats (calcUpcoming : ℚ → ℚ → List Conjunction)
    (islands : List (Island ℚ)) (params : AnalysisParams) (k : String)
    (st : ConjunctionStats)
    (hst : mapGet (analyzeConjunctions calcUpcoming islands params) k = some st)
    (htot : 1 ≤ st.totalConjunctions) :
    st.conjunctionTimes.length = st.totalConjunctions
      ∧ List.Pairwise (· ≤ ·) st.conjunctionTimes
      ∧ (0 < st.conjunctionTimes.headD 0 / 1000
            + (params.simulationDays - st.conjunctionTimes.getLastD 0 / 1000) →
          st.avgTimeBetweenConjunctions
            = ((st.conjunctionTimes.headD 0 / 1000
                + (params.simulationDays - st.conjunctionTimes.getLastD 0 / 1000))
              + (consecGaps st.conjunctionTimes).sum) / (st.totalConjunctions : ℚ))
      ∧ (st.conjunctionTimes.headD 0 / 1000
            + (params.simulationDays - st.conjunctionTimes.getLastD 0 / 1000) ≤ 0 →
          st.avgTimeBetweenConjunctions
            = (consecGaps st.conjunctionTimes).sum / ((st.totalConjunctions : ℚ) - 1))
      ∧ (st.totalConjunctions = 1 →
          st.minTimeBetweenConjunctions = some st.avgTimeBetweenConjunctions
            ∧ st.maxTimeBetweenConjunctions = some st.avgTimeBetweenConjunctions)
      ∧ (2 ≤ st.totalConjunctions →
          (∃ q, st.minTimeBetweenConjunctions = some q
              ∧ q ∈ consecGaps st.conjunctionTimes
              ∧ ∀ g ∈ consecGaps st.conjunctionTimes, q ≤ g)
            ∧ ∃ q, st.maxTimeBetweenConjunctions = some q
                ∧ q ∈ consecGaps st.conjunctionTimes
                ∧ ∀ g ∈ consecGaps st.conjunctionTimes, g ≤ q) := by
  rw [analyzeConjunctions] at hst
  rw [mapGet_map_snd] at hst
  obtain ⟨ps, hps, hcomp⟩ := Option.map_eq_some'.mp hst
  have hinv : ps.conjunctionTimes.length = ps.totalConjunctions := by
    refine foldl_processConjunction_length_inv _ _ ?_ k ps hps
    refine foldl_mapSet_pairs_length_inv _ _ ?_
    intro k' v' hv'
    simp [mapGet] at hv'
  have htot' : 0 < ps.totalConjunctions := by
    have : st.totalConjunctions = ps.totalConjunctions := by
      rw [← hcomp, computeIntervals_totalConjunctions]
    omega
  subst hcomp
  have htc : (computeIntervals params.simulationDays ps).totalConjunctions
      = ps.totalConjunctions := computeIntervals_totalConjunctions _ _
  rw [htc]
  rw [computeIntervals, if_pos htot']
  simp only
  set sorted := ps.conjunctionTimes.mergeSort (fun a b => decide (a ≤ b)) with hsorted
  have hslen : sorted.length = ps.totalConjunctions := by
    rw [hsorted, List.length_mergeSort, hinv]
  have hsort : List.Pairwise (· ≤ ·) sorted := by
    have := @List.sorted_mergeSort ℚ (fun a b : ℚ => decide (a ≤ b))
      (fun a b c hab hbc => by
        simp only [decide_eq_true_eq] at hab hbc ⊢
        exact le_trans hab hbc)
      (fun a b => by
        simp only [Bool.or_eq_true, decide_eq_true_eq]
        exact le_total a b)
      ps.conjunctionTimes
    exact this.imp (by simp)
  set outside := sorted.headD 0 / 1000 + (params.simulationDays
    - sorted.getLastD 0 / 1000) with houtside
  set gaps := consecGaps sorted with hgaps
  have hglen : gaps.length = ps.totalConjunctions - 1 := by
    rw [hgaps, consecGaps_length, hslen]
  refine ⟨hslen, hsort, ?_, ?_, ?_, ?_⟩
  · intro hpos
    rw [if_pos hpos]
    simp only [List.cons_append, List.nil_append, List.sum_cons, List.length_cons]
    congr 1
    have hlen1 : gaps.length + 1 = ps.totalConjunctions := by omega
    exact_mod_cast congrArg (fun n : ℕ => (n : ℚ)) hlen1
  · intro hneg
    rw [if_neg (not_lt.mpr hneg)]
    simp only [List.nil_append]
    congr 1
    rw [hglen]
    push_cast [Nat.cast_sub htot']
    ring
  · intro h1
    rw [if_neg (by omega)]
    exact ⟨rfl, rfl⟩
  · intro h2
    rw [if_pos (by omega)]
    have hgne : gaps ≠ [] := by
      intro hc
      rw [hc] at hglen
      simp at hglen
      omega
    obtain ⟨g0, gs, hg0⟩ : ∃ g0 gs, gaps = g0 :: gs := by
      rcases gaps with _ | ⟨g0, gs⟩
      · exact absurd rfl hgne
      · exact ⟨g0, gs, rfl⟩
    constructor
    · rw [hg0]
      simp only [List.foldl_cons]
      rw [show min (⊤ : WithTop ℚ) ((g0 : ℚ) : WithTop ℚ) = ((g0 : ℚ) : WithTop ℚ)
        from by simp]
      rw [foldl_min_withTop]
      refine ⟨gs.foldl min g0, rfl, ?_, ?_⟩
      · rcases (foldl_min_rat gs g0).1 with h | h
        · rw [h]; exact List.mem_cons_self g0 gs
        · exact List.mem_cons_of_mem g0 h
      · intro g hg
        rcases List.mem_cons.mp hg with rfl | hg
        · exact (foldl_min_rat gs g).2.1
        · exact (foldl_min_rat gs g0).2.2 g hg
    · have hnonneg : ∀ g ∈ gaps, 0 ≤ g := by
        rw [hgaps]
        exact consecGaps_nonneg sorted hsort
      have hg00 : 0 ≤ g0 := hnonneg g0 (by rw [hg0]; exact List.mem_cons_self _ _)
      have hstart : max (0 : ℚ) g0 = g0 := max_eq_right hg00
      rw [hg0]
      simp only [List.foldl_cons]
      rw [hstart]
      refine ⟨gs.foldl max g0, rfl, ?_, ?_⟩
      · rcases (foldl_max_rat gs g0).1 with h | h
        · rw [h]
          exact List.mem_cons_self g0 gs
        · exact List.mem_cons_of_mem g0 h
      · intro g hg
        rcases List.mem_cons.mp hg with rfl | hg
        · exact (foldl_max_rat gs g).2.1
        · exact (foldl_max_rat gs g0).2.2 g hg

/-- Witness for C3 at the concrete single-conjunction pair (2,3): the
theorem applies, and with one conjunction the min gap equals the average. -/
theorem analyzeConjunctions_gap_stats_witness :
    ∃ st, mapGet (analyzeConjunctions detBC [islandA, islandB, islandC]
        ⟨1, 1, some ((⌊(0 : ℚ) * 3650000000⌋ : ℤ) : ℚ)⟩) "2-3" = some st
      ∧ st.conjunctionTimes.length = st.totalConjunctions
      ∧ (st.totalConjunctions = 1 →
          st.minTimeBetweenConjunctions = some st.avgTimeBetweenConjunctions) := by
  obtain ⟨st, hst, htc⟩ := Option.map_eq_some'.mp statsBC_totalConj
  have h := analyzeConjunctions_gap_stats detBC [islandA, islandB, islandC]
    ⟨1, 1, some ((⌊(0 : ℚ) * 3650000000⌋ : ℤ) : ℚ)⟩ "2-3" st hst (by omega)
  exact ⟨st, hst, h.1, fun h1 => (h.2.2.2.2.1 h1).1⟩

/-- Counterexample to C3 as stated: with conjunction start times -4000 and
900 over a 1-day window (the first produced by the detector's look-back,
within 30 days before the window), the wraparound gap
`first + (simulationDays - last) = -3.9` is not positive, so the aggregator
omits it: the average gap is 4.9, not the claimed mean
`(wraparound + consecutive gaps) / 2 = 0.5`. -/
theorem analyzeConjunctions_gap_stats_counterexample :
    ((mapGet (analyzeConjunctions detLook [islandB, islandC] ⟨1, 1, some 0⟩)
        "2-3").map (fun s => s.avgTimeBetweenConjunctions) = some (49 / 10))
      ∧ (49 / 10 : ℚ)
          ≠ ((-4000 / 1000 + (1 - 900 / 1000))
              + (consecGaps [-4000, 900]).sum) / 2
      ∧ conjEarly.startTime < 0
      ∧ (0 : ℚ) - 30 * 1000 ≤ conjEarly.startTime := by
  refine ⟨?_, by norm_num [consecGaps], by norm_num [conjEarly],
    by norm_num [conjEarly]⟩
  rw [analyzeConjunctions]
  simp only [mapGet_map_snd]
  norm_num
  rw [chunkStarts_0_1000]
  refine ⟨_, rfl, ?_⟩
  rw [computeIntervals]
  norm_num
  simp only [zeroStats, conjEarly, conjLate, List.nil_append]
  rw [show List.mergeSort [(-4000 : ℚ), 900] (fun a b => decide (a ≤ b))
      = [-4000, 900] from List.mergeSort_of_sorted (by decide)]
  norm_num [consecGaps]

theorem effectivePeriodBounds_le (bounds : EpicycleBounds) (i : ℕ) (parentAbs : ℚ)
    (amin amax : ℤ)
    (h : effectivePeriodBounds bounds i parentAbs = .ok (amin, amax)) :
    amin ≤ amax := by
  rw [effectivePeriodBounds] at h
  cases hmn : resolveMinBound bounds i parentAbs with
  | error e => rw [hmn] at h; exact absurd h (by simp)
  | ok m0 =>
    rw [hmn] at h
    cases hmx : resolveMaxBound bounds i parentAbs with
    | error e => rw [hmx] at h; exact absurd h (by simp)
    | ok x0 =>
      rw [hmx] at h
      simp only [Except.ok.injEq, Prod.mk.injEq] at h
      obtain ⟨h1, h2⟩ := h
      subst h1
      subst h2
      split <;> omega

theorem gen_period_bounds (amin amax : ℤ) (r : ℚ) (hr0 : 0 ≤ r) (hr1 : r < 1)
    (hle : amin ≤ amax) :
    amin ≤ ⌊(amin : ℚ) + r * ((amax : ℚ) - (amin : ℚ) + 1)⌋
      ∧ ⌊(amin : ℚ) + r * ((amax : ℚ) - (amin : ℚ) + 1)⌋ ≤ amax := by
  have hrange : (1 : ℚ) ≤ (amax : ℚ) - (amin : ℚ) + 1 := by
    have : (amin : ℚ) ≤ (amax : ℚ) := by exact_mod_cast hle
    linarith
  constructor
  · rw [Int.le_floor]
    nlinarith
  · have hlt : ⌊(amin : ℚ) + r * ((amax : ℚ) - (amin : ℚ) + 1)⌋ < amax + 1 := by
      rw [Int.floor_lt]
      push_cast
      nlinarith
    omega

theorem cast_period_ok (amin amax z w : ℤ) (h1 : 1 ≤ amin) (hz1 : amin ≤ z)
    (hz2 : z ≤ amax) (hw : w = z ∨ w = -z) :
    (amin : ℚ) ≤ |((w : ℤ) : ℚ)| ∧ |((w : ℤ) : ℚ)| ≤ (amax : ℚ)
      ∧ ((w : ℤ) : ℚ) ≠ 0 := by
  have hwz : |w| = z := by
    rcases hw with rfl | rfl
    · exact abs_of_pos (by omega)
    · rw [abs_neg]
      exact abs_of_pos (by omega)
  have hcast : |((w : ℤ) : ℚ)| = ((z : ℤ) : ℚ) := by
    rw [← Int.cast_abs, hwz]
  refine ⟨?_, ?_, ?_⟩
  · rw [hcast]
    exact_mod_cast hz1
  · rw [hcast]
    exact_mod_cast hz2
  · have : w ≠ 0 := by omega
    exact_mod_cast this

theorem generateCycle_bounds (bounds : EpicycleBounds) (i : ℕ)
    (cyclesSoFar : List (Epicycle ℚ)) (draws : ℕ → ℚ) (pos : ℕ)
    (hdr : ∀ n, 0 ≤ draws n ∧ draws n < 1) (cycle : Epicycle ℚ) (pos' : ℕ)
    (hok : generateCycle bounds i cyclesSoFar draws pos = .ok (cycle, pos')) :
    ∃ amin amax : ℤ,
      effectivePeriodBounds bounds i |(cyclesSoFar.getLastD ⟨0⟩).period|
          = .ok (amin, amax)
        ∧ amin ≤ amax
        ∧ (1 ≤ amin → (amin : ℚ) ≤ |cycle.period| ∧ |cycle.period| ≤ (amax : ℚ)
            ∧ cycle.period ≠ 0) := by
  rw [generateCycle] at hok
  cases heb : effectivePeriodBounds bounds i |(cyclesSoFar.getLastD ⟨0⟩).period| with
  | error e =>
    rw [heb] at hok
    exact absurd hok (by simp)
  | ok p =>
    obtain ⟨amin, amax⟩ := p
    rw [heb] at hok
    have hle := effectivePeriodBounds_le bounds i _ amin amax heb
    refine ⟨amin, amax, rfl, hle, ?_⟩
    intro h1
    simp only at hok
    by_cases hmm : amin = amax
    · simp only [if_pos hmm] at hok
      by_cases han : bounds.allowNegative
      · simp only [if_pos han] at hok
        by_cases hd : draws pos < 1 / 2
        · simp only [if_pos hd, Except.ok.injEq, Prod.mk.injEq] at hok
          obtain ⟨hc, _⟩ := hok
          rw [← hc]
          exact cast_period_ok amin amax amin (-amin) h1 (le_refl _) hle (Or.inr rfl)
        · simp only [if_neg hd, Except.ok.injEq, Prod.mk.injEq] at hok
          obtain ⟨hc, _⟩ := hok
          rw [← hc]
          exact cast_period_ok amin amax amin amin h1 (le_refl _) hle (Or.inl rfl)
      · simp only [if_neg han, Except.ok.injEq, Prod.mk.injEq] at hok
        obtain ⟨hc, _⟩ := hok
        rw [← hc]
        exact cast_period_ok amin amax amin amin h1 (le_refl _) hle (Or.inl rfl)
    · simp only [if_neg hmm] at hok
      obtain ⟨hz1, hz2⟩ := gen_period_bounds amin amax (draws pos) (hdr pos).1
        (hdr pos).2 hle
      by_cases han : bounds.allowNegative
      · simp only [if_pos han] at hok
        by_cases hd : draws (pos + 1) < 1 / 2
        · simp only [if_pos hd, Except.ok.injEq, Prod.mk.injEq] at hok
          obtain ⟨hc, _⟩ := hok
          rw [← hc]
          exact cast_period_ok amin amax _ _ h1 hz1 hz2 (Or.inr rfl)
        · simp only [if_neg hd, Except.ok.injEq, Prod.mk.injEq] at hok
          obtain ⟨hc, _⟩ := hok
          rw [← hc]
          exact cast_period_ok amin amax _ _ h1 hz1 hz2 (Or.inl rfl)
      · simp only [if_neg han, Except.ok.injEq, Prod.mk.injEq] at hok
        obtain ⟨hc, _⟩ := hok
        rw [← hc]
        exact cast_period_ok amin amax _ _ h1 hz1 hz2 (Or.inl rfl)

theorem getLastD_append_singleton {α : Type} (l : List α) (c d : α) :
    (l ++ [c]).getLastD d = c := by
  induction l with
  | nil => rfl
  | cons a rest ih =>
    rw [List.cons_append, List.getLastD_cons]
    simp [ih]

theorem generateCyclesAux_boundsOk (draws : ℕ → ℚ)
    (hdr : ∀ n, 0 ≤ draws n ∧ draws n < 1) (epicycleBounds : List EpicycleBounds) :
    ∀ (i : ℕ) (acc : List (Epicycle ℚ)) (pos : ℕ) (out : List (Epicycle ℚ))
      (pos' : ℕ),
      generateCyclesAux draws epicycleBounds i acc pos = .ok (out, pos') →
      ∃ rest, out = acc ++ rest ∧ boundsOk epicycleBounds i (acc.getLastD ⟨0⟩) rest := by
  induction epicycleBounds with
  | nil =>
    intro i acc pos out pos' hok
    rw [generateCyclesAux] at hok
    simp only [Except.ok.injEq, Prod.mk.injEq] at hok
    exact ⟨[], by simp [hok.1.symm], rfl⟩
  | cons b bl ih =>
    intro i acc pos out pos' hok
    rw [generateCyclesAux] at hok
    cases hgc : generateCycle b i acc draws pos with
    | error e =>
      rw [hgc] at hok
      exact absurd hok (by simp)
    | ok cp =>
      obtain ⟨c, next⟩ := cp
      rw [hgc] at hok
      obtain ⟨rest', hout, hbok⟩ := ih (i + 1) (acc ++ [c]) next out pos' hok
      refine ⟨c :: rest', by simpa [List.append_assoc] using hout, ?_⟩
      rw [boundsOk]
      constructor
      · exact generateCycle_bounds b i acc draws pos hdr c next hgc
      · rw [getLastD_append_singleton] at hbok
        exact hbok

/-- Generation half of the period-bounds property: every island produced by
`generateRandomIslandConfig` satisfies `boundsOk`: at each epicycle level
the effective bounds against the generated parent compute successfully and,
whenever the rounded effective minimum is positive, the period magnitude
lies in `[ceil(effMin), floor(effMax) raised to ceil(effMin)]` and is
non-zero. -/
theorem generateRandomIslandConfig_bounds (epicycleBounds : List EpicycleBounds)
    (islandBase : Island ℚ) (draws : ℕ → ℚ) (pos : ℕ) (island : Island ℚ)
    (pos' : ℕ) (hdr : ∀ n, 0 ≤ draws n ∧ draws n < 1)
    (hok : generateRandomIslandConfig epicycleBounds islandBase draws pos
      = .ok (island, pos')) :
    boundsOk epicycleBounds 0 ⟨0⟩ island.cycles := by
  rw [generateRandomIslandConfig] at hok
  cases haux : generateCyclesAux draws epicycleBounds 0 [] pos with
  | error e =>
    rw [haux] at hok
    exact absurd hok (by simp)
  | ok cp =>
    obtain ⟨cycles, next⟩ := cp
    rw [haux] at hok
    simp only [Except.ok.injEq, Prod.mk.injEq] at hok
    obtain ⟨hisl, _⟩ := hok
    obtain ⟨rest, hout, hbok⟩ :=
      generateCyclesAux_boundsOk draws hdr epicycleBounds 0 [] pos cycles next haux
    rw [← hisl]
    show boundsOk epicycleBounds 0 ⟨0⟩ cycles
    rw [hout]
    simpa using hbok

theorem qSign_of_ne_zero (q : ℚ) (h : q ≠ 0) : qSign q = 1 ∨ qSign q = -1 := by
  rw [qSign]
  rcases lt_trichotomy q 0 with hq | hq | hq
  · rw [if_pos hq]
    exact Or.inr rfl
  · exact absurd hq h
  · rw [if_neg (not_lt.mpr (le_of_lt hq)), if_pos hq]
    exact Or.inl rfl

theorem perturb_period_ok (amin amax : ℤ) (np0 s : ℚ) (h1 : 1 ≤ amin)
    (hle : amin ≤ amax) (hs : s = 1 ∨ s = -1) :
    (amin : ℚ) ≤ |s * max (amin : ℚ) (min (amax : ℚ) np0)|
      ∧ |s * max (amin : ℚ) (min (amax : ℚ) np0)| ≤ (amax : ℚ)
      ∧ s * max (amin : ℚ) (min (amax : ℚ) np0) ≠ 0 := by
  set np := max (amin : ℚ) (min (amax : ℚ) np0) with hnp
  have hnp1 : (amin : ℚ) ≤ np := le_max_left _ _
  have hnp2 : np ≤ (amax : ℚ) := by
    apply max_le
    · exact_mod_cast hle
    · exact min_le_left _ _
  have hnppos : 0 < np := by
    have : (1 : ℚ) ≤ (amin : ℚ) := by exact_mod_cast h1
    linarith
  have habs : |s * np| = np := by
    rcases hs with rfl | rfl
    · rw [one_mul]
      exact abs_of_pos hnppos
    · rw [neg_one_mul, abs_neg]
      exact abs_of_pos hnppos
  refine ⟨by rw [habs]; exact hnp1, by rw [habs]; exact hnp2, ?_⟩
  rcases hs with rfl | rfl
  · rw [one_mul]
    exact ne_of_gt hnppos
  · rw [neg_one_mul]
    exact neg_ne_zero.mpr (ne_of_gt hnppos)

theorem perturb_period_ok_neg (amin amax : ℤ) (np0 s : ℚ) (h1 : 1 ≤ amin)
    (hle : amin ≤ amax) (hs : s = 1 ∨ s = -1) :
    (amin : ℚ) ≤ |(-s) * max (amin : ℚ) (min (amax : ℚ) np0)|
      ∧ |(-s) * max (amin : ℚ) (min (amax : ℚ) np0)| ≤ (amax : ℚ)
      ∧ (-s) * max (amin : ℚ) (min (amax : ℚ) np0) ≠ 0 := by
  obtain ⟨ha, hb, hc⟩ := perturb_period_ok amin amax np0 s h1 hle hs
  rw [neg_mul, abs_neg]
  exact ⟨ha, hb, neg_ne_zero.mpr hc⟩

theorem perturbCycle_bounds (bounds : EpicycleBounds) (j : ℕ)
    (cyclesSoFar : List (Epicycle ℚ)) (cycle : Epicycle ℚ)
    (temperature initialTemperature : ℚ) (draws : ℕ → ℚ) (pos : ℕ)
    (c' : Epicycle ℚ) (pos' : ℕ)
    (hok : perturbCycle bounds j cyclesSoFar cycle temperature initialTemperature
      draws pos = .ok (c', pos')) :
    c' = cycle
      ∨ ∃ amin amax : ℤ,
          effectivePeriodBounds bounds j |(cyclesSoFar.getLastD ⟨0⟩).period|
              = .ok (amin, amax)
            ∧ amin ≤ amax
            ∧ (1 ≤ amin → (amin : ℚ) ≤ |c'.period| ∧ |c'.period| ≤ (amax : ℚ)
                ∧ (cycle.period ≠ 0 → c'.period ≠ 0)) := by
  rw [perturbCycle] at hok
  by_cases hgate : draws pos < 1 / 2 * (temperature / initialTemperature)
  · rw [if_pos hgate] at hok
    simp only [] at hok
    cases heb : effectivePeriodBounds bounds j
        |(cyclesSoFar.getLastD ⟨0⟩).period| with
    | error e =>
      rw [heb] at hok
      exact absurd hok (by simp)
    | ok p =>
      obtain ⟨amin, amax⟩ := p
      rw [heb] at hok
      have hle := effectivePeriodBounds_le bounds j _ amin amax heb
      simp only [] at hok
      by_cases hz : cycle.period = 0
      · left
        have hsign : qSign cycle.period = 0 := by
          rw [hz, qSign]
          norm_num
        have hcycle : cycle = ⟨0⟩ := by
          cases cycle
          simpa using hz
        by_cases han : bounds.allowNegative
        · rw [if_pos han] at hok
          simp only [Except.ok.injEq, Prod.mk.injEq] at hok
          rw [← hok.1, hsign, hcycle]
          by_cases hd : draws (pos + 2) < 1 / 10 <;> simp [hd]
        · rw [if_neg han] at hok
          simp only [Except.ok.injEq, Prod.mk.injEq] at hok
          rw [← hok.1, hsign, hcycle]
          simp
      · right
        refine ⟨amin, amax, rfl, hle, ?_⟩
        intro h1
        have hs := qSign_of_ne_zero cycle.period hz
        by_cases han : bounds.allowNegative
        · rw [if_pos han] at hok
          simp only [Except.ok.injEq, Prod.mk.injEq] at hok
          rw [← hok.1]
          by_cases hd : draws (pos + 2) < 1 / 10
          · rw [if_pos hd]
            obtain ⟨ha, hb, hc⟩ := perturb_period_ok_neg amin amax _
              (qSign cycle.period) h1 hle hs
            exact ⟨ha, hb, fun _ => hc⟩
          · rw [if_neg hd]
            obtain ⟨ha, hb, hc⟩ := perturb_period_ok amin amax _
              (qSign cycle.period) h1 hle hs
            exact ⟨ha, hb, fun _ => hc⟩
        · rw [if_neg han] at hok
          simp only [Except.ok.injEq, Prod.mk.injEq] at hok
          rw [← hok.1]
          obtain ⟨ha, hb, hc⟩ := perturb_period_ok amin amax _
            (qSign cycle.period) h1 hle hs
          exact ⟨ha, hb, fun _ => hc⟩
  · rw [if_neg hgate] at hok
    simp only [Except.ok.injEq, Prod.mk.injEq] at hok
    exact Or.inl hok.1.symm

theorem perturbCyclesAux_perturbOk (epicycleBounds : List EpicycleBounds)
    (temperature initialTemperature : ℚ) (draws : ℕ → ℚ) :
    ∀ (oldCycles : List (Epicycle ℚ)) (j : ℕ) (acc : List (Epicycle ℚ))
      (pos : ℕ) (out : List (Epicycle ℚ)) (pos' : ℕ),
      perturbCyclesAux epicycleBounds temperature initialTemperature draws
          oldCycles j acc pos = .ok (out, pos') →
      ∃ rest, out = acc ++ rest
        ∧ perturbOk epicycleBounds j (acc.getLastD ⟨0⟩) oldCycles rest := by
  intro oldCycles
  induction oldCycles with
  | nil =>
    intro j acc pos out pos' hok
    rw [perturbCyclesAux] at hok
    simp only [Except.ok.injEq, Prod.mk.injEq] at hok
    exact ⟨[], by simp [hok.1.symm], rfl⟩
  | cons old oldRest ih =>
    intro j acc pos out pos' hok
    rw [perturbCyclesAux] at hok
    cases hb : epicycleBounds[j]? with
    | none =>
      rw [hb] at hok
      exact absurd hok (by simp)
    | some bounds =>
      rw [hb] at hok
      simp only [] at hok
      cases hpc : perturbCycle bounds j acc old temperature initialTemperature
          draws pos with
      | error e =>
        rw [hpc] at hok
        exact absurd hok (by simp)
      | ok cp =>
        obtain ⟨c, next⟩ := cp
        rw [hpc] at hok
        obtain ⟨rest', hout, hpok⟩ := ih (j + 1) (acc ++ [c]) next out pos' hok
        refine ⟨c :: rest', by simpa [List.append_assoc] using hout, ?_⟩
        rw [perturbOk]
        constructor
        · rcases perturbCycle_bounds bounds j acc old temperature
            initialTemperature draws pos c next hpc with hsame | ⟨amin, amax, h1, h2, h3⟩
          · exact Or.inl hsame
          · exact Or.inr ⟨bounds, hb, amin, amax, h1, h2, h3⟩
        · rw [getLastD_append_singleton] at hpok
          exact hpok

theorem perturbConfig_spec (epicycleBounds : List EpicycleBounds)
    (islands : List (Island ℚ)) (temperature initialTemperature : ℚ)
    (draws : ℕ → ℚ) (pos : ℕ) (islands' : List (Island ℚ)) (pos' : ℕ)
    (hok : perturbConfig epicycleBounds islands temperature initialTemperature
      draws pos = .ok (islands', pos')) :
    (islands.length ≤ 1 → islands' = islands)
      ∧ (1 < islands.length → ∃ cycles',
          islands' = islands.dropLast
              ++ [{ islands.getLastD ⟨0, "", "", 0, [], false⟩ with
                    cycles := cycles' }]
            ∧ perturbOk epicycleBounds 0 ⟨0⟩
                (islands.getLastD ⟨0, "", "", 0, [], false⟩).cycles cycles') := by
  rw [perturbConfig] at hok
  by_cases hlen : islands.length > 1
  · rw [if_pos hlen] at hok
    simp only [] at hok
    constructor
    · intro hle
      exact absurd hle (by omega)
    · intro _
      cases haux : perturbCyclesAux epicycleBounds temperature initialTemperature
          draws (islands.getLastD ⟨0, "", "", 0, [], false⟩).cycles 0 [] pos with
      | error e =>
        rw [haux] at hok
        exact absurd hok (by simp)
      | ok cp =>
        obtain ⟨cycles', next⟩ := cp
        rw [haux] at hok
        simp only [Except.ok.injEq, Prod.mk.injEq] at hok
        obtain ⟨rest, hout, hpok⟩ := perturbCyclesAux_perturbOk epicycleBounds
          temperature initialTemperature draws _ 0 [] pos cycles' next haux
        refine ⟨cycles', hok.1.symm, ?_⟩
        rw [hout]
        simpa using hpok
  · rw [if_neg hlen] at hok
    simp only [Except.ok.injEq, Prod.mk.injEq] at hok
    exact ⟨fun _ => hok.1.symm, fun h => absurd h hlen⟩

/-- C5 (amended): periods produced by the configuration search respect the
effective bounds.  Generation: every island from `generateRandomIslandConfig`
satisfies `boundsOk` — at each level the effective bounds against the
generated parent compute successfully and, whenever the rounded effective
minimum is at least 1, the period magnitude lies in
`[ceil(effMin), max(ceil(effMin), floor(effMax))]` and the period is
non-zero (with zero or negative effective minima, a zero period is
reachable).  Perturbation: `perturbConfig` keeps all islands but the last
unchanged (and everything when there is at most one island), and the last
island's cycles satisfy `perturbOk` — each cycle is either untouched by the
gate or lies within the effective bounds computed against the current,
possibly already perturbed, parent, never becoming zero if it was not. -/
theorem configSearch_period_bounds :
    (∀ (epicycleBounds : List EpicycleBounds) (islandBase : Island ℚ)
        (draws : ℕ → ℚ) (pos : ℕ) (island : Island ℚ) (pos' : ℕ),
        (∀ n, 0 ≤ draws n ∧ draws n < 1) →
        generateRandomIslandConfig epicycleBounds islandBase draws pos
            = .ok (island, pos') →
        boundsOk epicycleBounds 0 ⟨0⟩ island.cycles)
    ∧ (∀ (epicycleBounds : List EpicycleBounds) (islands : List (Island ℚ))
        (temperature initialTemperature : ℚ) (draws : ℕ → ℚ) (pos : ℕ)
        (islands' : List (Island ℚ)) (pos' : ℕ),
        perturbConfig epicycleBounds islands temperature initialTemperature
            draws pos = .ok (islands', pos') →
        (islands.length ≤ 1 → islands' = islands)
          ∧ (1 < islands.length → ∃ cycles',
              islands' = islands.dropLast
                  ++ [{ islands.getLastD ⟨0, "", "", 0, [], false⟩ with
                        cycles := cycles' }]
                ∧ perturbOk epicycleBounds 0 ⟨0⟩
                    (islands.getLastD ⟨0, "", "", 0, [], false⟩).cycles cycles')) := by
  constructor
  · intro eb ib dr p isl p2 hdr hok
    exact generateRandomIslandConfig_bounds eb ib dr p isl p2 hdr hok
  · intro eb isls t T dr p isls2 p2 hok
    exact perturbConfig_spec eb isls t T dr p isls2 p2 hok

theorem configSearch_period_bounds_witness :
    boundsOk [⟨some 5, some 5, none, none, false⟩] 0 ⟨0⟩
        ({ islandA with cycles := [⟨5⟩] } : Island ℚ).cycles
      ∧ ∃ cycles' : List (Epicycle ℚ),
          ([islandA] ++ [{ islandA with cycles := [(⟨300⟩ : Epicycle ℚ)] }]
              : List (Island ℚ))
            = ([islandA, islandA] : List (Island ℚ)).dropLast
                ++ [{ ([islandA, islandA] : List (Island ℚ)).getLastD
                        ⟨0, "", "", 0, [], false⟩ with cycles := cycles' }]
          ∧ perturbOk [⟨some 5, some 5, none, none, false⟩] 0 ⟨0⟩
              (([islandA, islandA] : List (Island ℚ)).getLastD
                  ⟨0, "", "", 0, [], false⟩).cycles cycles' := by
  constructor
  · exact configSearch_period_bounds.1 [⟨some 5, some 5, none, none, false⟩]
      islandA (fun _ => 0) 0 { islandA with cycles := [⟨5⟩] } 0
      (fun n => ⟨le_refl 0, by norm_num⟩) rfl
  · exact (configSearch_period_bounds.2 [⟨some 5, some 5, none, none, false⟩]
      [islandA, islandA] 1 2 (fun _ => 1) 0
      ([islandA] ++ [{ islandA with cycles := [⟨300⟩] }]) 1
      (by norm_num [perturbConfig, perturbCyclesAux, perturbCycle])).2
      (by norm_num)

/-- C5, counterexample to the original claim: with absolute bounds
`minPeriod = maxPeriod = 0` the generator succeeds and produces a cycle
whose period is exactly zero, contradicting "the period is never zero". -/
theorem configSearch_period_bounds_counterexample :
    ∃ island : Island ℚ,
      generateRandomIslandConfig [⟨some 0, some 0, none, none, false⟩] islandA
          (fun _ => 0) 0 = .ok (island, 0)
        ∧ ¬ (∀ c ∈ island.cycles, c.period ≠ 0) := by
  refine ⟨{ islandA with cycles := [⟨0⟩] }, rfl, ?_⟩
  intro h
  exact h ⟨0⟩ (by simp) rfl

end Skydrift
